import Mathlib

/-!
# auto-extractor: a verification development of `main.go`

The program watches the download directory, debounces the file-system events of
each file with a two-second timer and, when a timer fires, hands the path to
`process_file`, which extracts supported archives.

The development embeds

* the pieces of the Go standard library that the program calls on strings
  (`strings.HasSuffix`, `strings.TrimSuffix`, `strings.SplitN`, `path.Ext`),
* `getExtractor` and `process_file` (the operating system is an oracle, the
  result is the list of external calls made and the way the function ends),
* `event_listener` as a state machine over a logical clock in nanoseconds:
  the map `timers`, the timer objects handed out by `time.AfterFunc`, the
  callbacks that are inside `process_file`, and the record of the
  `process_file` calls made by callbacks. A callback runs in a goroutine of its
  own: between its call of `process_file` and its `delete` the loop goes on
  handling events. How long each call of `process_file` takes is given by an
  oracle `dur`, over which the statements about runs quantify. The calls are
  recorded, not executed: a panic inside `process_file` ends the program, and
  the state machine describes the run up to that point.

Go strings are byte strings; every separator the program looks for is ASCII, so
a string is modelled as its list of characters.
-/

namespace AutoExtractor

/-- A Go string. -/
abbrev Str := List Char

/-! ## Go standard library -/

/-- Go `strings.HasSuffix`:
`len(s) >= len(suffix) && s[len(s)-len(suffix):] == suffix`. -/
def HasSuffix (s suffix : Str) : Bool :=
  decide (suffix.length ≤ s.length) && (s.drop (s.length - suffix.length) == suffix)

/-- Go `strings.TrimSuffix`: `s[:len(s)-len(suffix)]` when `s` has the suffix,
`s` itself otherwise. -/
def TrimSuffix (s suffix : Str) : Str :=
  if HasSuffix s suffix then s.take (s.length - suffix.length) else s

/-- Go `strings.IndexByte`: position of the first occurrence of `c`. -/
def IndexByte : Str → Char → Option Nat
  | [], _ => none
  | x :: xs, c => if x = c then some 0 else (IndexByte xs c).map (· + 1)

/-- Go `strings.SplitN(s, sep, n)` for a one-byte separator and `n ≥ 0`: at most
`n` pieces, the last piece being the unsplit remainder. -/
def SplitN (s : Str) (sep : Char) : Nat → List Str
  | 0 => []
  | 1 => [s]
  | n + 2 =>
    match IndexByte s sep with
    | none => [s]
    | some m => s.take m :: SplitN (s.drop (m + 1)) sep (n + 1)

/-- The loop of Go `path.Ext`, run over the reversed path: walk back from the
end, stop with the empty extension at a slash, return the suffix from the first
dot met. `acc` is the part of the path already walked over. -/
def ExtScan : Str → Str → Str
  | [], _ => []
  | c :: rest, acc =>
    if c = '/' then [] else if c = '.' then '.' :: acc else ExtScan rest (c :: acc)

/-- Go `path.Ext`: the suffix beginning at the final dot of the final
slash-separated element of the path, empty if there is no dot. -/
def Ext (path : Str) : Str := ExtScan path.reverse []

/-! ## Archive dispatch and the extraction pipeline -/

/-- The three extractor functions of the program (`nil` is `none`). -/
inductive ArchiveExtractor
  | unzip
  | unarrExtract
  | untargz
  deriving DecidableEq, Repr

/-- Function `getExtractor` of `main.go`. -/
def getExtractor (ext : Str) : Option ArchiveExtractor :=
  if ext = ".zip".toList then some ArchiveExtractor.unzip
  else if ext = ".7z".toList ∨ ext = ".rar".toList then some ArchiveExtractor.unarrExtract
  else if ext = ".tar.gz".toList then some ArchiveExtractor.untargz
  else none

/-- Lines 209-213 of `process_file`: the extension handed to `getExtractor`. -/
def archiveExt (filepath : Str) : Str :=
  let ext := Ext filepath
  let ext2 := Ext (TrimSuffix filepath ext)
  if ext2 = ".tar".toList then ext2 ++ ext else ext

/-- The extractor `process_file` resolves for a path (lines 209-216). -/
def resolve (filepath : Str) : Option ArchiveExtractor :=
  getExtractor (archiveExt filepath)

/-- The first check of `process_file` (line 196). -/
def ignorable (filepath : Str) : Bool :=
  HasSuffix filepath ".tmp".toList || HasSuffix filepath ".opdownload".toList ||
    HasSuffix filepath ".part".toList

/-- The operating system and the libraries as seen by `process_file`: every
external call answers whether it succeeds. `Stat` answers `none` when `os.Stat`
returns an error and `some d` with `d = stat.IsDir()` otherwise; `Join` and
`Base` are `path.Join` and `filepath.Base`. -/
structure OS where
  Stat : Str → Option Bool
  Notify : Str → Str → Str → Bool
  MkdirAll : Str → Nat → Bool
  Extract : ArchiveExtractor → Str → Str → Bool
  Rename : Str → Str → Bool
  Join : Str → Str → Str
  Base : Str → Str

/-- An external call with a visible effect, in the order `process_file` makes
them: desktop notification, directory creation, extractor run, move. -/
inductive Effect
  | Notify (title message icon : Str)
  | MkdirAll (path : Str) (perm : Nat)
  | Extract (x : ArchiveExtractor) (filepath dir_path : Str)
  | Rename (oldpath newpath : Str)
  deriving DecidableEq, Repr

/-- The call after which `process_file` panics. -/
inductive Site
  | stat
  | notifyStart
  | mkdirAll
  | extractor
  | rename
  | notifyDone
  deriving DecidableEq, Repr

/-- The way a call of `process_file` ends. -/
inductive Exit
  | returned
  | panicked (site : Site)
  deriving DecidableEq, Repr

/-- Function `process_file` of `main.go`: the external calls it makes, in order,
and how it ends. -/
def process_file (os : OS) (filepath : Str) : List Effect × Exit :=
  if ignorable filepath then ([], Exit.returned)
  else
    match os.Stat filepath with
    | none => ([], Exit.panicked Site.stat)
    | some isDir =>
      if isDir then ([], Exit.returned)
      else
        let ext := archiveExt filepath
        let dir_path := TrimSuffix filepath ext
        match getExtractor ext with
        | none => ([], Exit.returned)
        | some archiveExtractor =>
          let n1 := Effect.Notify "AutoExtractor: ".toList ("extracting ".toList ++ filepath)
            "download_icon.png".toList
          if !os.Notify "AutoExtractor: ".toList ("extracting ".toList ++ filepath)
              "download_icon.png".toList then
            ([n1], Exit.panicked Site.notifyStart)
          else
            let mk := Effect.MkdirAll dir_path 0o750
            if !os.MkdirAll dir_path 0o750 then ([n1, mk], Exit.panicked Site.mkdirAll)
            else
              let ex := Effect.Extract archiveExtractor filepath dir_path
              if !os.Extract archiveExtractor filepath dir_path then
                ([n1, mk, ex], Exit.panicked Site.extractor)
              else
                let tmp := os.Join dir_path (os.Base filepath)
                let mv := Effect.Rename filepath tmp
                if !os.Rename filepath tmp then ([n1, mk, ex, mv], Exit.panicked Site.rename)
                else
                  let n2 := Effect.Notify "AutoExtractor: ".toList
                    (dir_path ++ " extracted successfully".toList) "extracted_icon.png".toList
                  if !os.Notify "AutoExtractor: ".toList
                      (dir_path ++ " extracted successfully".toList)
                      "extracted_icon.png".toList then
                    ([n1, mk, ex, mv, n2], Exit.panicked Site.notifyDone)
                  else ([n1, mk, ex, mv, n2], Exit.returned)

/-! ## The event loop -/

/-- The create bit of `fsnotify.Op`. -/
def Create : Nat := 1

/-- The write bit of `fsnotify.Op`. -/
def Write : Nat := 2

/-- The remove bit of `fsnotify.Op`. -/
def Remove : Nat := 4

/-- The rename bit of `fsnotify.Op`. -/
def Rename : Nat := 8

/-- The chmod bit of `fsnotify.Op`. -/
def Chmod : Nat := 16

/-- An `fsnotify.Event`: a path and a bit set of operations. -/
structure Event where
  Name : Str
  Op : Nat
  deriving DecidableEq, Repr

/-- Method `Has` of `fsnotify.Event`: the operation bit `op` is set. -/
def Event.Has (e : Event) (op : Nat) : Bool := e.Op &&& op == op

/-- The quiet period `wait := 2 * time.Second`, in nanoseconds. -/
def wait : Nat := 2 * 1000000000

/-- Lines 64-71 of `event_listener`: the key under which an event path is
looked up in `timers`; `none` is the `continue` of line 68. -/
def logicalName (eventName : Str) : Option Str :=
  if HasSuffix eventName ".part".toList then
    match SplitN eventName '.' 3 with
    | [p0, _, p2] => some (p0 ++ ".".toList ++ TrimSuffix p2 ".part".toList)
    | _ => none
  else some eventName

/-- Lines 60-71 of `event_listener` as a function of the path: `none` when the
loop skips the path, the key of `timers` otherwise. -/
def classify (path : Str) : Option Str :=
  if HasSuffix path ".tmp".toList || HasSuffix path ".opdownload".toList then none
  else logicalName path

/-- A `*time.Timer` made by `time.AfterFunc(wait, func() { callback(event) })`:
the event captured by the closure, and the instant at which the timer will
expire (`none`: it has expired and has not been reset). -/
structure Timer where
  f : Event
  when : Option Nat
  deriving DecidableEq, Repr

/-- A call `process_file(path)` made by a callback: the instant of the call,
the path, and the handle of the timer whose expiry ran the callback. -/
structure Call where
  instant : Nat
  path : Str
  timer : Nat
  deriving DecidableEq, Repr

/-- A callback in progress: it has called `process_file(e.Name)` (line 43),
which returns at the instant `returns`; `delete(timers, e.Name)` (line 45) has
not run yet. -/
structure Running where
  returns : Nat
  e : Event
  deriving DecidableEq, Repr

/-- The state of `event_listener` and of the goroutines of its timers: the map
`timers` (key to timer handle), the timer objects created so far (a handle is an
index), the callbacks that are inside `process_file`, and the calls of
`process_file` made so far. -/
structure Listener where
  timers : List (Str × Nat)
  heap : List Timer
  running : List Running
  calls : List Call
  deriving DecidableEq, Repr

/-- The state in which `event_listener` enters its loop. -/
def Listener.init : Listener := ⟨[], [], [], []⟩

/-- Map lookup `t, ok := timers[name]`. -/
def mapGet : List (Str × Nat) → Str → Option Nat
  | [], _ => none
  | (k, v) :: m, key => if k = key then some v else mapGet m key

/-- Map removal `delete(timers, key)`. -/
def mapDelete (m : List (Str × Nat)) (key : Str) : List (Str × Nat) :=
  m.filter (fun kv => decide (kv.1 ≠ key))

/-- Map assignment `timers[key] = t`. -/
def mapSet (m : List (Str × Nat)) (key : Str) (t : Nat) : List (Str × Nat) :=
  (key, t) :: mapDelete m key

/-- Method `t.Reset(wait)` on the timer with handle `t`: the timer will expire
at `deadline`, the instant of the call plus `wait`, also when it had expired
before the call (its function then runs again). -/
def Reset (heap : List Timer) (t : Nat) (deadline : Nat) : List Timer :=
  heap.modify (fun tm => { tm with when := some deadline }) t

/-- One iteration of the loop of `event_listener` on an event received at
instant `now` (lines 51-85). -/
def event_listener_step (now : Nat) (event : Event) (s : Listener) : Listener :=
  if !event.Has Create && !event.Has Write then s
  else if HasSuffix event.Name ".tmp".toList || HasSuffix event.Name ".opdownload".toList then s
  else
    match logicalName event.Name with
    | none => s
    | some name =>
      match mapGet s.timers name with
      | none =>
        { s with
          heap := s.heap ++ [Timer.mk event (some (now + wait))]
          timers := mapSet s.timers name s.heap.length }
      | some t => { s with heap := Reset s.heap t (now + wait) }

/-- Lines 42-43 of `callback`, run at instant `now` by the expiry of the timer
`i`: `process_file(e.Name)` is called and returns `busy` later; until then the
callback is in progress and the map is as it was. -/
def callback_process (now i busy : Nat) (e : Event) (s : Listener) : Listener :=
  { s with
    calls := s.calls ++ [Call.mk now e.Name i]
    running := s.running ++ [Running.mk (now + busy) e] }

/-- Lines 44-46 of `callback`, run when `process_file` has returned:
`delete(timers, e.Name)` under the mutex. -/
def callback_delete (e : Event) (s : Listener) : Listener :=
  { s with timers := mapDelete s.timers e.Name }

/-- The timer with handle `i` expires if it is armed and `due` holds of its
instant `d`: the runtime marks it expired and starts `callback` on the captured
event in a goroutine of its own, which calls `process_file`; the call takes
`dur i d`. -/
def fire (due : Nat → Bool) (dur : Nat → Nat → Nat) (i : Nat) (s : Listener) : Listener :=
  match s.heap[i]? with
  | none => s
  | some t =>
    match t.when with
    | none => s
    | some d =>
      if due d then
        callback_process d i (dur i d) t.f { s with heap := s.heap.set i { t with when := none } }
      else s

/-- Every armed timer whose instant satisfies `due` expires. Expiries do not
read the map and do not arm timers, so the order among them does not change the
resulting state; each recorded call carries its own instant. -/
def fireAll (due : Nat → Bool) (dur : Nat → Nat → Nat) (s : Listener) : Listener :=
  (List.range s.heap.length).foldl (fun st i => fire due dur i st) s

/-- Every callback in progress whose `process_file` returns at an instant
satisfying `due` goes on to its `delete` and ends. -/
def finish (due : Nat → Bool) (s : Listener) : Listener :=
  (s.running.filter (fun r => due r.returns)).foldl (fun st r => callback_delete r.e st)
    { s with running := s.running.filter (fun r => !due r.returns) }

/-- Time advances to `now` with no event in between: the timers whose instant
is at most `now` expire, and the callbacks whose `process_file` has returned by
`now` delete their key. `dur` tells how long each call of `process_file`
takes (by timer handle and instant of the call). -/
def advance (dur : Nat → Nat → Nat) (now : Nat) (s : Listener) : Listener :=
  finish (fun u => decide (u ≤ now)) (fireAll (fun d => decide (d ≤ now)) dur s)

/-- No more events arrive: every armed timer expires at its instant and every
callback runs to its end. -/
def drain (dur : Nat → Nat → Nat) (s : Listener) : Listener :=
  finish (fun _ => true) (fireAll (fun _ => true) dur s)

/-- The loop of `event_listener` over events with their arrival instants, run
concurrently with the callbacks: when an event is handled, the timers due by
then have expired and the calls of `process_file` that have returned by then
have been followed by their `delete`; the other callbacks are still inside
`process_file`. -/
def runEvents (dur : Nat → Nat → Nat) (evs : List (Nat × Event)) (s : Listener) : Listener :=
  evs.foldl (fun st te => event_listener_step te.1 te.2 (advance dur te.1 st)) s

/-- Function `event_listener` on a finite stream of events, followed by the
expiry of the timers still armed when the stream ends and the end of all
callbacks. -/
def event_listener (dur : Nat → Nat → Nat) (evs : List (Nat × Event)) (s : Listener) :
    Listener :=
  drain dur (runEvents dur evs s)

/-- The instants at which `process_file` was called on `path`. -/
def signalsFor (path : Str) (s : Listener) : List Nat :=
  (s.calls.filter (fun c => decide (c.path = path))).map Call.instant

/-- Every call of `process_file` returns at once. -/
def atOnce : Nat → Nat → Nat := fun _ _ => 0

/-- Every call of `process_file` takes one second. -/
def oneSecond : Nat → Nat → Nat := fun _ _ => 1000000000

/-! ## Notions used in the statements -/

/-- Lines 56-71 of `event_listener` as a function of the event: `none` when the
loop skips the event (an operation without create or write bit, an ignored
suffix, a `.part` name with fewer than three pieces), the key of `timers`
otherwise. -/
def eventKey (e : Event) : Option Str :=
  if !e.Has Create && !e.Has Write then none else classify e.Name

/-- The arrival instant of the last event of a list, `t` for the empty list. -/
def lastInstant : Nat → List (Nat × Event) → Nat
  | t, [] => t
  | _, te :: rest => lastInstant te.1 rest

/-- Each event of the list has the key `name` and, when the loop handles it,
finds the entry of `name` in the map with the timer handle `t`: the events are
coalesced into the entry of that timer. -/
def coalescedInto (dur : Nat → Nat → Nat) (name : Str) (t : Nat) :
    Listener → List (Nat × Event) → Bool
  | _, [] => true
  | s, te :: rest =>
    (eventKey te.2 == some name) && (mapGet (advance dur te.1 s).timers name == some t) &&
      coalescedInto dur name t (event_listener_step te.1 te.2 (advance dur te.1 s)) rest

/-- A sample file system: the archive `movie.zip`, the directory `movie`, the
text file `notes.txt`, and nothing else; every other call succeeds. -/
def sampleOS : OS where
  Stat := fun p =>
    if p = "movie.zip".toList ∨ p = "notes.txt".toList then some false
    else if p = "movie".toList then some true else none
  Notify := fun _ _ _ => true
  MkdirAll := fun _ _ => true
  Extract := fun _ _ _ => true
  Rename := fun _ _ => true
  Join := fun d b => d ++ "/".toList ++ b
  Base := fun p => p

/-- Paths that can sit in a timer while the key `name` is held by a timer made
for the `.part` path `p`: they qualify, and `p` is the only one with key
`name`. -/
def heldBy (name p path : Str) : Prop :=
  classify path ≠ none ∧ (classify path = some name → path = p)

/-- Paths that can sit in a timer before any event for the key `name`. -/
def unseen (name path : Str) : Prop :=
  classify path ≠ none ∧ classify path ≠ some name

/-- The state after the first event for `name`, which had the path `p`: the key
is in the map, and every timer, every callback in progress and every recorded
call is for a path allowed by `heldBy`. -/
def partHeld (name p : Str) (s : Listener) : Prop :=
  mapGet s.timers name ≠ none ∧
  (∀ (i : Nat) (t : Timer), s.heap[i]? = some t → heldBy name p t.f.Name) ∧
  (∀ r ∈ s.running, heldBy name p r.e.Name) ∧
  (∀ c ∈ s.calls, heldBy name p c.path)

/-- The state before the first event for `name`. -/
def notSeen (name : Str) (s : Listener) : Prop :=
  mapGet s.timers name = none ∧
  (∀ (i : Nat) (t : Timer), s.heap[i]? = some t → unseen name t.f.Name) ∧
  (∀ r ∈ s.running, unseen name r.e.Name) ∧
  (∀ c ∈ s.calls, unseen name c.path)

/-- The timer `n` holds the event `e0`, and every recorded call made by the
timer `n` is a call on the path of `e0`. -/
def holds (n : Nat) (e0 : Event) (s : Listener) : Prop :=
  (∃ t, s.heap[n]? = some t ∧ t.f = e0) ∧ (∀ c ∈ s.calls, c.timer = n → c.path = e0.Name)

/-- Every recorded call was made by a timer that exists. -/
def callsKnown (s : Listener) : Prop := ∀ c ∈ s.calls, c.timer < s.heap.length

/-- The events of a list all have the key `name`, and each arrives less than
`wait` after the one before it (the first less than `wait` after `t`). -/
def coalesced (name : Str) : Nat → List (Nat × Event) → Bool
  | _, [] => true
  | t, te :: rest =>
    decide (te.1 < t + wait) && (eventKey te.2 == some name) && coalesced name te.1 rest

/-- No timer of the state is armed and no callback is in progress. -/
def quiescent (s : Listener) : Bool :=
  s.heap.all (fun t => t.when == none) && s.running.isEmpty

/-- The state with one more timer than the state `s`: a timer for the event `e`,
armed for the instant `d` and stored in the map under `name`. -/
def pending (s : Listener) (name : Str) (e : Event) (d : Nat) : Listener :=
  { s with
    timers := mapSet s.timers name s.heap.length
    heap := s.heap ++ [Timer.mk e (some d)] }

/-! ## Facts about the string functions -/

theorem HasSuffix_iff (s suffix : Str) :
    HasSuffix s suffix = true ↔ ∃ x, s = x ++ suffix := by
  unfold HasSuffix
  simp only [Bool.and_eq_true, decide_eq_true_eq, beq_iff_eq]
  constructor
  · rintro ⟨_, h⟩
    refine ⟨s.take (s.length - suffix.length), ?_⟩
    conv_lhs => rw [← List.take_append_drop (s.length - suffix.length) s]
    rw [h]
  · rintro ⟨x, rfl⟩
    simp

theorem HasSuffix_append (x suffix : Str) : HasSuffix (x ++ suffix) suffix = true :=
  (HasSuffix_iff _ _).2 ⟨x, rfl⟩

theorem TrimSuffix_append (x suffix : Str) : TrimSuffix (x ++ suffix) suffix = x := by
  unfold TrimSuffix
  rw [HasSuffix_append]
  simp

theorem TrimSuffix_of_not (s suffix : Str) (h : HasSuffix s suffix = false) :
    TrimSuffix s suffix = s := by
  unfold TrimSuffix
  simp [h]

theorem IndexByte_append (base rest : Str) (c : Char) (h : c ∉ base) :
    IndexByte (base ++ c :: rest) c = some base.length := by
  induction base with
  | nil => simp [IndexByte]
  | cons x xs ih =>
    have hx : x ≠ c := fun e => h (by simp [e])
    have hxs : c ∉ xs := fun e => h (by simp [e])
    simp [IndexByte, hx, ih hxs]

theorem IndexByte_eq_none (s : Str) (c : Char) : IndexByte s c = none ↔ c ∉ s := by
  induction s with
  | nil => simp [IndexByte]
  | cons x xs ih =>
    by_cases hx : x = c
    · simp [IndexByte, hx]
    · have hx2 : ¬ c = x := fun e => hx e.symm
      simp [IndexByte, hx, hx2, ih]

theorem IndexByte_some (s : Str) (c : Char) (m : Nat) (h : IndexByte s c = some m) :
    ∃ rest, s = s.take m ++ c :: rest ∧ s.drop (m + 1) = rest ∧ c ∉ s.take m := by
  induction s generalizing m with
  | nil => simp [IndexByte] at h
  | cons x xs ih =>
    by_cases hx : x = c
    · simp [IndexByte, hx] at h
      subst h
      exact ⟨xs, by simp [hx], by simp, by simp⟩
    · simp only [IndexByte, hx, if_false] at h
      cases hi : IndexByte xs c with
      | none => simp [hi] at h
      | some k =>
      simp only [hi, Option.map_some'] at h
      have hm : m = k + 1 := by simpa using h.symm
      subst hm
      obtain ⟨rest, h1, h2, h3⟩ := ih k hi
      refine ⟨rest, ?_, ?_, ?_⟩
      · simp only [List.take_succ_cons, List.cons_append]
        rw [← h1]
      · simpa using h2
      · simp only [List.take_succ_cons, List.mem_cons, not_or]
        exact ⟨fun e => hx e.symm, h3⟩

theorem SplitN_three (base token rest : Str) (c : Char) (hb : c ∉ base) (ht : c ∉ token) :
    SplitN (base ++ c :: (token ++ c :: rest)) c 3 = [base, token, rest] := by
  simp [SplitN, IndexByte_append _ _ _ hb, IndexByte_append _ _ _ ht]

theorem SplitN_two (base tail : Str) (c : Char) (hb : c ∉ base) (ht : c ∉ tail) :
    SplitN (base ++ c :: tail) c 3 = [base, tail] := by
  simp [SplitN, IndexByte_append _ _ _ hb, (IndexByte_eq_none tail c).2 ht]

theorem SplitN_three_length (s : Str) (c : Char) :
    (SplitN s c 3).length = 3 ↔ 2 ≤ s.count c := by
  unfold SplitN
  cases h : IndexByte s c with
  | none =>
    have := (IndexByte_eq_none s c).1 h
    simp [List.count_eq_zero_of_not_mem this]
  | some m =>
    obtain ⟨rest, h1, h2, h3⟩ := IndexByte_some s c m h
    have hc : s.count c = 1 + rest.count c := by
      rw [h1, List.count_append, List.count_eq_zero_of_not_mem h3]
      simp
      omega
    simp only [h2]
    unfold SplitN
    cases h' : IndexByte rest c with
    | none =>
      have := (IndexByte_eq_none rest c).1 h'
      simp [hc, List.count_eq_zero_of_not_mem this]
    | some m' =>
      obtain ⟨rest', h1', _, _⟩ := IndexByte_some rest c m' h'
      have hc' : 1 ≤ rest.count c := by
        rw [h1', List.count_append]
        simp
        omega
      simp [SplitN]
      omega

theorem HasSuffix_getLast (s suffix : Str) (c : Char) (h : HasSuffix s suffix = true)
    (hc : suffix.getLast? = some c) : s.getLast? = some c := by
  obtain ⟨x, rfl⟩ := (HasSuffix_iff _ _).1 h
  cases suffix with
  | nil => simp at hc
  | cons a l =>
    rw [List.getLast?_append, hc]
    rfl

theorem not_tmp_of_part (s : Str) (h : HasSuffix s ".part".toList = true) :
    (HasSuffix s ".tmp".toList || HasSuffix s ".opdownload".toList) = false := by
  have h1 := HasSuffix_getLast s _ 't' h (by decide)
  cases h2 : HasSuffix s ".tmp".toList with
  | true =>
    have := HasSuffix_getLast s _ 'p' h2 (by decide)
    rw [h1] at this
    exact absurd this (by decide)
  | false =>
    cases h3 : HasSuffix s ".opdownload".toList with
    | true =>
      have := HasSuffix_getLast s _ 'd' h3 (by decide)
      rw [h1] at this
      exact absurd this (by decide)
    | false => rfl

theorem append_cons_unique (c : Char) :
    ∀ (a b x y : Str), c ∉ a → c ∉ b → x ++ c :: a = y ++ c :: b → a = b := by
  intro a b x y ha hb h
  have hr := congrArg List.reverse h
  simp only [List.reverse_append, List.reverse_cons, List.append_assoc, List.singleton_append]
    at hr
  have key : ∀ (p q u v : Str), c ∉ p → c ∉ q → p ++ c :: u = q ++ c :: v → p = q := by
    intro p
    induction p with
    | nil =>
      intro q u v _ hq e
      cases q with
      | nil => rfl
      | cons z zs =>
        simp only [List.nil_append, List.cons_append, List.cons.injEq] at e
        exact absurd (by simp [e.1]) hq
    | cons z zs ih =>
      intro q u v hp hq e
      cases q with
      | nil =>
        simp only [List.nil_append, List.cons_append, List.cons.injEq] at e
        exact absurd (by simp [e.1]) hp
      | cons w ws =>
        simp only [List.cons_append, List.cons.injEq] at e
        have hzs : c ∉ zs := fun m => hp (by simp [m])
        have hws : c ∉ ws := fun m => hq (by simp [m])
        rw [e.1, ih ws u v hzs hws e.2]
  have := key a.reverse b.reverse x.reverse y.reverse (by simpa using ha) (by simpa using hb) hr
  simpa using this

/-- A dot-free extension after a dot is the only suffix of that shape. -/
theorem HasSuffix_dot_ext (base ext suf : Str) (he : '.' ∉ ext) (hs : '.' ∉ suf)
    (h : HasSuffix (base ++ '.' :: ext) ('.' :: suf) = true) : ext = suf := by
  obtain ⟨y, hy⟩ := (HasSuffix_iff _ _).1 h
  exact append_cons_unique '.' ext suf base y he hs hy

theorem classify_of_part (path : Str) (h : HasSuffix path ".part".toList = true) :
    classify path = logicalName path := by
  unfold classify
  rw [not_tmp_of_part path h]
  rfl

theorem logicalName_token (base token rest : Str) (hb : '.' ∉ base) (ht : '.' ∉ token)
    (h : HasSuffix (base ++ '.' :: (token ++ '.' :: rest)) ".part".toList = true) :
    logicalName (base ++ '.' :: (token ++ '.' :: rest))
      = some (base ++ ".".toList ++ TrimSuffix rest ".part".toList) := by
  unfold logicalName
  rw [h, SplitN_three base token rest '.' hb ht]
  rfl

theorem ExtScan_shape : ∀ (l acc : Str), '.' ∉ acc →
    ExtScan l acc = [] ∨ ∃ r, ExtScan l acc = '.' :: r ∧ '.' ∉ r := by
  intro l
  induction l with
  | nil => intro acc _; exact Or.inl rfl
  | cons c rest ih =>
    intro acc hacc
    unfold ExtScan
    by_cases h1 : c = '/'
    · simp [h1]
    · by_cases h2 : c = '.'
      · right
        exact ⟨acc, by simp [h1, h2], hacc⟩
      · simp only [h1, h2, if_false]
        apply ih
        simp only [List.mem_cons, not_or]
        exact ⟨fun e => h2 e.symm, hacc⟩

theorem Ext_shape (path : Str) : Ext path = [] ∨ ∃ r, Ext path = '.' :: r ∧ '.' ∉ r :=
  ExtScan_shape path.reverse [] (by simp)

theorem Ext_ne_targz (path : Str) : Ext path ≠ ".tar.gz".toList := by
  intro h
  rcases Ext_shape path with h0 | ⟨r, hr, hdot⟩
  · rw [h0] at h
    exact absurd h (by decide)
  · rw [hr] at h
    have : r = "tar.gz".toList := by
      have := List.tail_eq_of_cons_eq h
      exact this
    rw [this] at hdot
    exact hdot (by decide)

/-! ## Suffix classification (C4, C5, C6, C9) -/

/-- C9: an event whose operation has neither the create nor the write bit, or
whose path ends in `.tmp` or `.opdownload`, leaves the whole state of the event
loop as it was: the map `timers` is unchanged, no timer is created or reset, and
no call of `process_file` is recorded. -/
theorem C9_nonqualifying_event_is_inert (now : Nat) (event : Event) (s : Listener)
    (h : (event.Has Create = false ∧ event.Has Write = false) ∨
      HasSuffix event.Name ".tmp".toList = true ∨
      HasSuffix event.Name ".opdownload".toList = true) :
    event_listener_step now event s = s := by
  unfold event_listener_step
  rcases h with ⟨h1, h2⟩ | h | h
  · simp [h1, h2]
  · have hc : (HasSuffix event.Name ".tmp".toList ||
        HasSuffix event.Name ".opdownload".toList) = true := by rw [h]; rfl
    rw [hc]
    simp
  · have hc : (HasSuffix event.Name ".tmp".toList ||
        HasSuffix event.Name ".opdownload".toList) = true := by rw [h]; simp
    rw [hc]
    simp

/-- C9, at a chmod event on an archive and at a create event on a `.tmp` path,
in a state that holds a pending timer. -/
theorem C9_nonqualifying_event_is_inert_witness :
    event_listener_step 5 ⟨"a.zip".toList, Chmod⟩
        ⟨[("a.zip".toList, 0)], [⟨⟨"a.zip".toList, Create⟩, some 7⟩], [], []⟩
      = ⟨[("a.zip".toList, 0)], [⟨⟨"a.zip".toList, Create⟩, some 7⟩], [], []⟩ ∧
    event_listener_step 5 ⟨"a.zip.tmp".toList, Create⟩
        ⟨[("a.zip".toList, 0)], [⟨⟨"a.zip".toList, Create⟩, some 7⟩], [], []⟩
      = ⟨[("a.zip".toList, 0)], [⟨⟨"a.zip".toList, Create⟩, some 7⟩], [], []⟩ :=
  ⟨C9_nonqualifying_event_is_inert 5 _ _ (Or.inl ⟨by decide, by decide⟩),
    C9_nonqualifying_event_is_inert 5 _ _ (Or.inr (Or.inl (by decide)))⟩

/-- C4, as stated, fails: `a.zip.part` is keyed under `a.part` and `a.zip` under
`a.zip`, so the two paths do not share a key of `timers`. -/
theorem C4_counterexample :
    classify "a.zip.part".toList = some "a.part".toList ∧
    classify "a.zip".toList = some "a.zip".toList ∧
    classify "a.zip.part".toList ≠ classify "a.zip".toList := by
  decide

/-- C4, amended: for dot-free `base` and `ext`, `ext` not an in-progress suffix,
the path `base.ext.part` is keyed under `base.part` and the final path
`base.ext` under `base.ext`, two different keys; the in-progress path shares the
key `base.ext` of the final path when it carries a dot-free token,
`base.token.ext.part`. -/
theorem C4_part_path_and_final_path_keys (base ext token : Str)
    (hb : '.' ∉ base) (he : '.' ∉ ext) (ht : '.' ∉ token)
    (h1 : ext ≠ "tmp".toList) (h2 : ext ≠ "opdownload".toList) (h3 : ext ≠ "part".toList) :
    classify (base ++ ".".toList ++ ext ++ ".part".toList) = some (base ++ ".part".toList) ∧
    classify (base ++ ".".toList ++ ext) = some (base ++ ".".toList ++ ext) ∧
    classify (base ++ ".".toList ++ ext ++ ".part".toList)
      ≠ classify (base ++ ".".toList ++ ext) ∧
    classify (base ++ ".".toList ++ token ++ ".".toList ++ ext ++ ".part".toList)
      = classify (base ++ ".".toList ++ ext) := by
  have hfinal : classify (base ++ ".".toList ++ ext) = some (base ++ ".".toList ++ ext) := by
    have e : base ++ ".".toList ++ ext = base ++ '.' :: ext := by simp
    have n1 : HasSuffix (base ++ '.' :: ext) ".tmp".toList = false := by
      cases h : HasSuffix (base ++ '.' :: ext) ".tmp".toList with
      | false => rfl
      | true => exact absurd (HasSuffix_dot_ext base ext _ he (by decide) h) h1
    have n2 : HasSuffix (base ++ '.' :: ext) ".opdownload".toList = false := by
      cases h : HasSuffix (base ++ '.' :: ext) ".opdownload".toList with
      | false => rfl
      | true => exact absurd (HasSuffix_dot_ext base ext _ he (by decide) h) h2
    have n3 : HasSuffix (base ++ '.' :: ext) ".part".toList = false := by
      cases h : HasSuffix (base ++ '.' :: ext) ".part".toList with
      | false => rfl
      | true => exact absurd (HasSuffix_dot_ext base ext _ he (by decide) h) h3
    rw [e]
    simp only [classify, logicalName, n1, n2, n3]
    rfl
  have hpart : classify (base ++ ".".toList ++ ext ++ ".part".toList)
      = some (base ++ ".part".toList) := by
    rw [classify_of_part _ (HasSuffix_append _ _)]
    have e : base ++ ".".toList ++ ext ++ ".part".toList
        = base ++ '.' :: (ext ++ '.' :: "part".toList) := by simp
    have hs : HasSuffix (base ++ '.' :: (ext ++ '.' :: "part".toList)) ".part".toList = true := by
      rw [← e]; exact HasSuffix_append _ _
    rw [e, logicalName_token base ext _ hb he hs]
    have ht : TrimSuffix "part".toList ".part".toList = "part".toList := by decide
    rw [ht]
    simp
  have htok : classify (base ++ ".".toList ++ token ++ ".".toList ++ ext ++ ".part".toList)
      = some (base ++ ".".toList ++ ext) := by
    rw [classify_of_part _ (HasSuffix_append _ _)]
    have e : base ++ ".".toList ++ token ++ ".".toList ++ ext ++ ".part".toList
        = base ++ '.' :: (token ++ '.' :: (ext ++ ".part".toList)) := by simp
    have hs : HasSuffix (base ++ '.' :: (token ++ '.' :: (ext ++ ".part".toList)))
        ".part".toList = true := by
      rw [← e]; exact HasSuffix_append _ _
    rw [e, logicalName_token base token _ hb ht hs, TrimSuffix_append]
  refine ⟨hpart, hfinal, ?_, ?_⟩
  · rw [hpart, hfinal]
    intro h
    have h' := Option.some.inj h
    simp only [List.append_assoc, List.append_cancel_left_eq] at h'
    have : "part".toList = ext := by
      have := List.tail_eq_of_cons_eq h'
      simpa using this
    exact h3 this.symm
  · rw [htok, hfinal]

/-- C4, amended, at `movie`, `zip` and the token `8f3ac1`. -/
theorem C4_part_path_and_final_path_keys_witness :
    classify "movie.zip.part".toList = some "movie.part".toList ∧
    classify "movie.zip".toList = some "movie.zip".toList ∧
    classify "movie.zip.part".toList ≠ classify "movie.zip".toList ∧
    classify "movie.8f3ac1.zip.part".toList = classify "movie.zip".toList :=
  C4_part_path_and_final_path_keys "movie".toList "zip".toList "8f3ac1".toList
    (by decide) (by decide) (by decide) (by decide) (by decide) (by decide)

/-- C5, as stated, fails: `report.8f3ac1.part` is keyed under `report.part`,
not under `report`. -/
theorem C5_counterexample :
    classify "report.8f3ac1.part".toList = some "report.part".toList ∧
    classify "report.8f3ac1.part".toList ≠ some "report".toList := by
  decide

/-- C5, amended: for dot-free `base` and `token`, the path `base.token.part`
qualifies under the key `base.part`, and `base.token.ext.part` qualifies under
the key `base.ext`, for every `ext`. -/
theorem C5_double_suffix_unwrap (base token : Str) (hb : '.' ∉ base) (ht : '.' ∉ token) :
    classify (base ++ ".".toList ++ token ++ ".part".toList) = some (base ++ ".part".toList) ∧
    ∀ ext : Str,
      classify (base ++ ".".toList ++ token ++ ".".toList ++ ext ++ ".part".toList)
        = some (base ++ ".".toList ++ ext) := by
  constructor
  · rw [classify_of_part _ (HasSuffix_append _ _)]
    have e : base ++ ".".toList ++ token ++ ".part".toList
        = base ++ '.' :: (token ++ '.' :: "part".toList) := by simp
    have hs : HasSuffix (base ++ '.' :: (token ++ '.' :: "part".toList)) ".part".toList
        = true := by
      rw [← e]; exact HasSuffix_append _ _
    rw [e, logicalName_token base token _ hb ht hs]
    have htr : TrimSuffix "part".toList ".part".toList = "part".toList := by decide
    rw [htr]
    simp
  · intro ext
    rw [classify_of_part _ (HasSuffix_append _ _)]
    have e : base ++ ".".toList ++ token ++ ".".toList ++ ext ++ ".part".toList
        = base ++ '.' :: (token ++ '.' :: (ext ++ ".part".toList)) := by simp
    have hs : HasSuffix (base ++ '.' :: (token ++ '.' :: (ext ++ ".part".toList)))
        ".part".toList = true := by
      rw [← e]; exact HasSuffix_append _ _
    rw [e, logicalName_token base token _ hb ht hs, TrimSuffix_append]

/-- C5, amended, at `archive` and the token `a1b2c3`. -/
theorem C5_double_suffix_unwrap_witness :
    classify "archive.a1b2c3.part".toList = some "archive.part".toList ∧
    classify "archive.a1b2c3.zip.part".toList = some "archive.zip".toList :=
  ⟨(C5_double_suffix_unwrap "archive".toList "a1b2c3".toList (by decide) (by decide)).1,
    (C5_double_suffix_unwrap "archive".toList "a1b2c3".toList (by decide) (by decide)).2
      "zip".toList⟩

/-- C6, as stated, fails: `a.b.c.d.part` ends in `.part` and has four
dot-separated segments after its base, yet a create event for it is not
ignored: it puts a timer in the map, under the key `a.c.d`. -/
theorem C6_counterexample :
    HasSuffix "a.b.c.d.part".toList ".part".toList = true ∧
    List.count '.' "a.b.c.d.part".toList = 4 ∧
    classify "a.b.c.d.part".toList = some "a.c.d".toList ∧
    mapGet (event_listener_step 0 ⟨"a.b.c.d.part".toList, Create⟩ Listener.init).timers
      "a.c.d".toList = some 0 := by
  decide

/-- C6, amended: a path ending in `.part` is skipped by the event loop exactly
when it has fewer than two dots (one segment after its base, as `file.part`);
an event for a skipped path leaves the state as it was, and a create event for
any other `.part` path leaves a timer in the map under the key of the path. -/
theorem C6_part_path_skipped_iff_fewer_than_two_dots (path : Str)
    (h : HasSuffix path ".part".toList = true) :
    (classify path = none ↔ List.count '.' path < 2) ∧
    (classify path = none →
      ∀ (now op : Nat) (s : Listener), event_listener_step now ⟨path, op⟩ s = s) ∧
    (∀ name, classify path = some name →
      ∀ (now : Nat) (s : Listener),
        mapGet (event_listener_step now ⟨path, Create⟩ s).timers name ≠ none) := by
  have hc := classify_of_part path h
  have hlen := SplitN_three_length path '.'
  refine ⟨?_, ?_, ?_⟩
  · rw [hc]
    unfold logicalName
    rw [h]
    simp only [if_true]
    constructor
    · intro hn
      by_contra hcount
      have h3 : (SplitN path '.' 3).length = 3 := hlen.2 (by omega)
      match hsp : SplitN path '.' 3, h3 with
      | [p0, p1, p2], _ => rw [hsp] at hn; simp at hn
    · intro hcount
      have h3 : (SplitN path '.' 3).length ≠ 3 := fun e => by
        have := hlen.1 e
        omega
      match hsp : SplitN path '.' 3, h3 with
      | [], _ => rfl
      | [_], _ => rfl
      | [_, _], _ => rfl
      | [_, _, _], h3 => exact absurd rfl h3
      | _ :: _ :: _ :: _ :: _, _ => rfl
  · intro hn now op s
    rw [hc] at hn
    unfold event_listener_step
    simp [hn]
  · intro name hname now s
    rw [hc] at hname
    have hq : (⟨path, Create⟩ : Event).Has Create = true := by simp [Event.Has, Create]
    unfold event_listener_step
    simp only [hq, Bool.not_true, Bool.false_and, not_tmp_of_part path h, hname]
    cases hg : mapGet s.timers name with
    | none => simp [mapSet, mapGet]
    | some t => simp [hg]

/-- C6, amended, at `file.part` (skipped) and `a.b.c.d.part` (not skipped). -/
theorem C6_part_path_skipped_iff_fewer_than_two_dots_witness :
    (classify "file.part".toList = none ↔ List.count '.' "file.part".toList < 2) ∧
    (classify "a.b.c.d.part".toList = none ↔ List.count '.' "a.b.c.d.part".toList < 2) :=
  ⟨(C6_part_path_skipped_iff_fewer_than_two_dots "file.part".toList (by decide)).1,
    (C6_part_path_skipped_iff_fewer_than_two_dots "a.b.c.d.part".toList (by decide)).1⟩

/-! ## Archive dispatch and `process_file` (C7, C8) -/

theorem getExtractor_tar (e : Str) :
    getExtractor (".tar".toList ++ e)
      = if e = ".gz".toList then some ArchiveExtractor.untargz else none := by
  have e1 : ".tar".toList ++ e ≠ ".zip".toList := by
    intro h
    have hh : some 't' = some 'z' := congrArg (fun l => l.drop 1 |>.head?) h
    exact absurd hh (by decide)
  have e2 : ".tar".toList ++ e ≠ ".7z".toList := by
    intro h
    have hh : some 't' = some '7' := congrArg (fun l => l.drop 1 |>.head?) h
    exact absurd hh (by decide)
  have e3 : ".tar".toList ++ e ≠ ".rar".toList := by
    intro h
    have hh : some 't' = some 'r' := congrArg (fun l => l.drop 1 |>.head?) h
    exact absurd hh (by decide)
  have e4 : ".tar".toList ++ e = ".tar.gz".toList ↔ e = ".gz".toList := by
    have : ".tar.gz".toList = ".tar".toList ++ ".gz".toList := by decide
    rw [this]
    exact List.append_right_inj _
  unfold getExtractor
  rw [if_neg e1, if_neg (by simp only [e2, e3, or_self, not_false_eq_true])]
  by_cases h : e = ".gz".toList
  · rw [if_pos (e4.2 h), if_pos h]
  · rw [if_neg (fun x => h (e4.1 x)), if_neg h]

/-- C7, as stated, fails: the trailing extension of `archive.tar.zip` is `.zip`,
yet no extractor is resolved for it (the extension looked up is `.tar.zip`). -/
theorem C7_counterexample :
    Ext "archive.tar.zip".toList = ".zip".toList ∧
    resolve "archive.tar.zip".toList = none := by
  decide

/-- C7, amended: the extractor resolved for a path is a function of its trailing
extension and of the extension before it. When the extension before is `.tar`,
the result is `untargz` (TarGz) for a trailing `.gz` and `nil` (Unsupported)
otherwise; when it is not, the result is `unzip` (Zip) for `.zip`,
`unarrExtract` (SevenZipOrRar) for `.7z` and `.rar`, and `nil` otherwise.
`archive.tar.gz` gives TarGz, `archive.gz` Unsupported, `archive.zip` Zip. -/
theorem C7_dispatch_follows_extension_table :
    (∀ path : Str,
      resolve path =
        if Ext (TrimSuffix path (Ext path)) = ".tar".toList then
          (if Ext path = ".gz".toList then some ArchiveExtractor.untargz else none)
        else if Ext path = ".zip".toList then some ArchiveExtractor.unzip
        else if Ext path = ".7z".toList ∨ Ext path = ".rar".toList then
          some ArchiveExtractor.unarrExtract
        else none) ∧
    resolve "archive.tar.gz".toList = some ArchiveExtractor.untargz ∧
    resolve "archive.gz".toList = none ∧
    resolve "archive.zip".toList = some ArchiveExtractor.unzip := by
  refine ⟨?_, by decide, by decide, by decide⟩
  intro path
  unfold resolve archiveExt
  by_cases htar : Ext (TrimSuffix path (Ext path)) = ".tar".toList
  · simp only [htar, if_true]
    exact getExtractor_tar _
  · simp only [htar, if_false]
    unfold getExtractor
    rw [if_neg (Ext_ne_targz path)]

/-- C8: `process_file` makes an external call (the first is the start
notification) only for a path without ignorable suffix that exists, is not a
directory and has an extractor, and for such a path it does start with the
notification; for a path without ignorable suffix that does not exist it panics
at the stat check having made no call; for a directory, and for an existing
path without extractor such as `notes.txt`, it returns having made no call. -/
theorem C8_process_file_preconditions (os : OS) (filepath : Str) :
    ((process_file os filepath).1 ≠ [] ↔
      (ignorable filepath = false ∧ os.Stat filepath = some false ∧
        resolve filepath ≠ none)) ∧
    ((process_file os filepath).1 ≠ [] →
      (process_file os filepath).1.head? =
        some (Effect.Notify "AutoExtractor: ".toList ("extracting ".toList ++ filepath)
          "download_icon.png".toList)) ∧
    (ignorable filepath = false → os.Stat filepath = none →
      process_file os filepath = ([], Exit.panicked Site.stat)) ∧
    (os.Stat filepath = some true → process_file os filepath = ([], Exit.returned)) ∧
    (os.Stat filepath ≠ none → resolve filepath = none →
      process_file os filepath = ([], Exit.returned)) ∧
    resolve "notes.txt".toList = none := by
  refine ⟨?_, ?_, ?_, ?_, ?_, by decide⟩
  · unfold process_file resolve
    cases hi : ignorable filepath <;> cases hs : os.Stat filepath with
    | none => simp
    | some d =>
      cases d <;> cases hx : getExtractor (archiveExt filepath) <;> simp [hx]
      all_goals (split_ifs <;> simp)
  · unfold process_file
    cases hi : ignorable filepath <;> cases hs : os.Stat filepath with
    | none => simp
    | some d =>
      cases d <;> cases hx : getExtractor (archiveExt filepath) <;> simp [hx]
      all_goals (split_ifs <;> simp)
  · intro hi hs
    unfold process_file
    simp [hi, hs]
  · intro hs
    unfold process_file
    simp [hs]
  · intro hs hr
    unfold process_file
    unfold resolve at hr
    cases hst : os.Stat filepath with
    | none => exact absurd hst hs
    | some d => cases d <;> simp [hr]

/-- C8, on the sample file system: the archive `movie.zip` starts a job, the
absent `gone.zip` panics at the stat check, the directory `movie` and the text
file `notes.txt` return without any call. -/
theorem C8_process_file_preconditions_witness :
    (process_file sampleOS "movie.zip".toList).1 ≠ [] ∧
    process_file sampleOS "gone.zip".toList = ([], Exit.panicked Site.stat) ∧
    process_file sampleOS "movie".toList = ([], Exit.returned) ∧
    process_file sampleOS "notes.txt".toList = ([], Exit.returned) :=
  ⟨(C8_process_file_preconditions sampleOS "movie.zip".toList).1.2
      ⟨by decide, by decide, by decide⟩,
    (C8_process_file_preconditions sampleOS "gone.zip".toList).2.2.1 (by decide) (by decide),
    (C8_process_file_preconditions sampleOS "movie".toList).2.2.2.1 (by decide),
    (C8_process_file_preconditions sampleOS "notes.txt".toList).2.2.2.2.1 (by decide)
      (by decide)⟩

/-! ## Facts about the map, the timers and the callbacks -/

theorem mapGet_mapDelete (m : List (Str × Nat)) (k x : Str) :
    mapGet (mapDelete m k) x = if k = x then none else mapGet m x := by
  induction m with
  | nil => simp [mapDelete, mapGet]
  | cons kv m ih =>
    obtain ⟨k', v⟩ := kv
    unfold mapDelete at ih ⊢
    rw [List.filter_cons]
    by_cases h1 : k' = k
    · have hd : decide ((k', v).1 ≠ k) = false := by simp [h1]
      rw [hd, if_neg (by simp), ih]
      subst h1
      by_cases h2 : k' = x
      · simp [h2]
      · simp [mapGet, h2]
    · have hd : decide ((k', v).1 ≠ k) = true := by simp [h1]
      rw [hd, if_pos rfl]
      simp only [mapGet]
      rw [ih]
      by_cases h3 : k' = x
      · have h2 : ¬ k = x := fun e => h1 (h3.trans e.symm)
        simp [h3, h2]
      · simp [h3]

theorem mapGet_mapSet (m : List (Str × Nat)) (k x : Str) (v : Nat) :
    mapGet (mapSet m k v) x = if k = x then some v else mapGet m x := by
  unfold mapSet
  by_cases h : k = x
  · simp [mapGet, h]
  · simp [mapGet, h, mapGet_mapDelete]

theorem step_of_key_none (now : Nat) (e : Event) (s : Listener) (h : eventKey e = none) :
    event_listener_step now e s = s := by
  unfold eventKey classify at h
  unfold event_listener_step
  split_ifs at h ⊢ <;> simp_all

theorem step_of_key_some (now : Nat) (e : Event) (s : Listener) (name : Str)
    (h : eventKey e = some name) :
    event_listener_step now e s =
      match mapGet s.timers name with
      | none =>
        { s with
          heap := s.heap ++ [Timer.mk e (some (now + wait))]
          timers := mapSet s.timers name s.heap.length }
      | some t => { s with heap := Reset s.heap t (now + wait) } := by
  unfold eventKey classify at h
  unfold event_listener_step
  split_ifs at h ⊢
  simp_all

theorem eventKey_classify (e : Event) (k : Str) (h : eventKey e = some k) :
    classify e.Name = some k := by
  unfold eventKey at h
  split_ifs at h
  exact h

theorem step_found (now : Nat) (e : Event) (s : Listener) (name : Str) (i : Nat)
    (hk : eventKey e = some name) (hg : mapGet s.timers name = some i) :
    event_listener_step now e s = { s with heap := Reset s.heap i (now + wait) } := by
  rw [step_of_key_some now e s name hk, hg]

theorem step_first (now : Nat) (e : Event) (s : Listener) (name : Str)
    (hk : eventKey e = some name) (hg : mapGet s.timers name = none) :
    event_listener_step now e s =
      { s with
        heap := s.heap ++ [Timer.mk e (some (now + wait))]
        timers := mapSet s.timers name s.heap.length } := by
  rw [step_of_key_some now e s name hk, hg]

theorem step_calls (now : Nat) (e : Event) (s : Listener) :
    (event_listener_step now e s).calls = s.calls := by
  cases hk : eventKey e with
  | none => rw [step_of_key_none now e s hk]
  | some k =>
    rw [step_of_key_some now e s k hk]
    cases hg : mapGet s.timers k <;> rfl

theorem step_running (now : Nat) (e : Event) (s : Listener) :
    (event_listener_step now e s).running = s.running := by
  cases hk : eventKey e with
  | none => rw [step_of_key_none now e s hk]
  | some k =>
    rw [step_of_key_some now e s k hk]
    cases hg : mapGet s.timers k <;> rfl

theorem step_timers (now : Nat) (e : Event) (s : Listener) (k x : Str)
    (hk : eventKey e = some k) (hx : k ≠ x) :
    mapGet (event_listener_step now e s).timers x = mapGet s.timers x := by
  rw [step_of_key_some now e s k hk]
  cases hg : mapGet s.timers k with
  | none =>
    show mapGet (mapSet s.timers k s.heap.length) x = _
    rw [mapGet_mapSet, if_neg hx]
  | some t0 => rfl

/-- The timers of a heap after a step are the old timers, possibly reset, and
possibly one new timer for the event. -/
theorem step_heap (now : Nat) (e : Event) (s : Listener) (k : Str)
    (hk : eventKey e = some k) (j : Nat) (t' : Timer)
    (hj : (event_listener_step now e s).heap[j]? = some t') :
    (∃ t, s.heap[j]? = some t ∧ t'.f = t.f) ∨
      (mapGet s.timers k = none ∧ j = s.heap.length ∧ t'.f = e) := by
  rw [step_of_key_some now e s k hk] at hj
  cases hg : mapGet s.timers k with
  | none =>
    rw [hg] at hj
    have hj' : (s.heap ++ [Timer.mk e (some (now + wait))])[j]? = some t' := hj
    rw [List.getElem?_append] at hj'
    split_ifs at hj' with h1
    · exact Or.inl ⟨t', hj', rfl⟩
    · right
      have hz : j - s.heap.length = 0 := by
        by_contra hne
        have h2 : 1 ≤ j - s.heap.length := by omega
        rw [List.getElem?_eq_none (by simpa using h2)] at hj'
        cases hj'
      refine ⟨rfl, by omega, ?_⟩
      rw [hz] at hj'
      simp only [List.getElem?_cons_zero, Option.some.injEq] at hj'
      rw [← hj']
  | some t0 =>
    rw [hg] at hj
    have hj' : (Reset s.heap t0 (now + wait))[j]? = some t' := hj
    unfold Reset at hj'
    rw [List.getElem?_modify] at hj'
    left
    cases hq : s.heap[j]? with
    | none => rw [hq] at hj'; cases hj'
    | some t =>
      rw [hq] at hj'
      have hj2 : some (if t0 = j then { t with when := some (now + wait) } else t) = some t' :=
        hj'
      refine ⟨t, rfl, ?_⟩
      rw [← Option.some.inj hj2]
      split_ifs <;> rfl

/-- A step keeps every timer, up to a reset of its instant. -/
theorem step_keeps (now : Nat) (e : Event) (s : Listener) (j : Nat) (t : Timer)
    (hj : s.heap[j]? = some t) :
    ∃ t', (event_listener_step now e s).heap[j]? = some t' ∧ t'.f = t.f := by
  have hlt : j < s.heap.length := by
    by_contra h
    rw [List.getElem?_eq_none (by omega)] at hj
    cases hj
  cases hk : eventKey e with
  | none => rw [step_of_key_none now e s hk]; exact ⟨t, hj, rfl⟩
  | some k =>
    rw [step_of_key_some now e s k hk]
    cases hg : mapGet s.timers k with
    | none =>
      refine ⟨t, ?_, rfl⟩
      show (s.heap ++ [Timer.mk e (some (now + wait))])[j]? = some t
      rw [List.getElem?_append_left hlt, hj]
    | some t0 =>
      show ∃ t', (Reset s.heap t0 (now + wait))[j]? = some t' ∧ t'.f = t.f
      unfold Reset
      rw [List.getElem?_modify, hj]
      refine ⟨if t0 = j then { t with when := some (now + wait) } else t, rfl, ?_⟩
      split_ifs <;> rfl

theorem step_length_le (now : Nat) (e : Event) (s : Listener) :
    s.heap.length ≤ (event_listener_step now e s).heap.length := by
  cases hk : eventKey e with
  | none => rw [step_of_key_none now e s hk]
  | some k =>
    rw [step_of_key_some now e s k hk]
    cases hg : mapGet s.timers k with
    | none =>
      show s.heap.length ≤ (s.heap ++ [Timer.mk e (some (now + wait))]).length
      simp
    | some t0 =>
      show s.heap.length ≤ (Reset s.heap t0 (now + wait)).length
      unfold Reset
      simp

theorem fire_of_none (due : Nat → Bool) (dur : Nat → Nat → Nat) (i : Nat) (s : Listener)
    (h : s.heap[i]? = none) : fire due dur i s = s := by
  unfold fire
  rw [h]

theorem fire_of_idle (due : Nat → Bool) (dur : Nat → Nat → Nat) (i : Nat) (s : Listener)
    (t : Timer) (h : s.heap[i]? = some t) (hw : t.when = none) : fire due dur i s = s := by
  unfold fire
  rw [h]
  simp only [hw]

theorem fire_of_not_due (due : Nat → Bool) (dur : Nat → Nat → Nat) (i : Nat) (s : Listener)
    (t : Timer) (d : Nat) (h : s.heap[i]? = some t) (hw : t.when = some d)
    (hd : due d = false) : fire due dur i s = s := by
  unfold fire
  rw [h]
  simp only [hw, hd]
  rfl

theorem fire_of_due (due : Nat → Bool) (dur : Nat → Nat → Nat) (i : Nat) (s : Listener)
    (t : Timer) (d : Nat) (h : s.heap[i]? = some t) (hw : t.when = some d)
    (hd : due d = true) :
    fire due dur i s
      = callback_process d i (dur i d) t.f
          { s with heap := s.heap.set i { t with when := none } } := by
  unfold fire
  rw [h]
  simp only [hw, hd]
  rfl

/-- What an expiry does, if it does anything. -/
theorem fire_cases (due : Nat → Bool) (dur : Nat → Nat → Nat) (i : Nat) (s : Listener) :
    fire due dur i s = s ∨
      ∃ t d, s.heap[i]? = some t ∧ t.when = some d ∧ due d = true ∧
        fire due dur i s
          = callback_process d i (dur i d) t.f
              { s with heap := s.heap.set i { t with when := none } } := by
  cases h : s.heap[i]? with
  | none => exact Or.inl (fire_of_none due dur i s h)
  | some t =>
    cases hw : t.when with
    | none => exact Or.inl (fire_of_idle due dur i s t h hw)
    | some d =>
      cases hd : due d with
      | false => exact Or.inl (fire_of_not_due due dur i s t d h hw hd)
      | true => exact Or.inr ⟨t, d, rfl, hw, hd, fire_of_due due dur i s t d h hw hd⟩

theorem heap_set_idle (heap : List Timer) (i j : Nat) (t t' : Timer)
    (hi : heap[i]? = some t) (hj : (heap.set i { t with when := none })[j]? = some t') :
    ∃ t0, heap[j]? = some t0 ∧ t'.f = t0.f := by
  by_cases h1 : i = j
  · subst h1
    rw [List.getElem?_set', if_pos rfl, hi] at hj
    have hj2 : some ({ t with when := none } : Timer) = some t' := hj
    exact ⟨t, hi, by rw [← Option.some.inj hj2]⟩
  · rw [List.getElem?_set_ne h1] at hj
    exact ⟨t', hj, rfl⟩

theorem fire_timers (due : Nat → Bool) (dur : Nat → Nat → Nat) (i : Nat) (s : Listener) :
    (fire due dur i s).timers = s.timers := by
  rcases fire_cases due dur i s with h | ⟨t, d, _, _, _, h⟩ <;> rw [h]
  rfl

theorem fire_length (due : Nat → Bool) (dur : Nat → Nat → Nat) (i : Nat) (s : Listener) :
    (fire due dur i s).heap.length = s.heap.length := by
  rcases fire_cases due dur i s with h | ⟨t, d, _, _, _, h⟩ <;> rw [h]
  show (s.heap.set i _).length = _
  simp

/-- An expiry keeps every timer, up to its instant. -/
theorem fire_keeps (due : Nat → Bool) (dur : Nat → Nat → Nat) (i : Nat) (s : Listener)
    (j : Nat) (t : Timer) (hj : s.heap[j]? = some t) :
    ∃ t', (fire due dur i s).heap[j]? = some t' ∧ t'.f = t.f := by
  rcases fire_cases due dur i s with h | ⟨t0, d, h0, _, _, h⟩ <;> rw [h]
  · exact ⟨t, hj, rfl⟩
  · show ∃ t', (s.heap.set i { t0 with when := none })[j]? = some t' ∧ t'.f = t.f
    by_cases h1 : i = j
    · subst h1
      have ht : t0 = t := by
        rw [h0] at hj
        exact Option.some.inj hj
      rw [List.getElem?_set', if_pos rfl, h0]
      exact ⟨{ t0 with when := none }, rfl, by rw [← ht]⟩
    · rw [List.getElem?_set_ne h1]
      exact ⟨t, hj, rfl⟩

/-- An expiry leaves the other timers as they are. -/
theorem fire_other (due : Nat → Bool) (dur : Nat → Nat → Nat) (i : Nat) (s : Listener)
    (j : Nat) (hij : i ≠ j) : (fire due dur i s).heap[j]? = s.heap[j]? := by
  rcases fire_cases due dur i s with h | ⟨t0, d, _, _, _, h⟩
  · rw [h]
  · rw [h]
    show (s.heap.set i _)[j]? = _
    rw [List.getElem?_set_ne hij]

theorem fire_calls_mono (due : Nat → Bool) (dur : Nat → Nat → Nat) (i : Nat) (s : Listener)
    (c : Call) (hc : c ∈ s.calls) : c ∈ (fire due dur i s).calls := by
  rcases fire_cases due dur i s with h | ⟨t0, d, _, _, _, h⟩ <;> rw [h]
  · exact hc
  · show c ∈ s.calls ++ _
    exact List.mem_append_left _ hc

theorem fire_running_mono (due : Nat → Bool) (dur : Nat → Nat → Nat) (i : Nat)
    (s : Listener) (r : Running) (hr : r ∈ s.running) : r ∈ (fire due dur i s).running := by
  rcases fire_cases due dur i s with h | ⟨t0, d, _, _, _, h⟩ <;> rw [h]
  · exact hr
  · show r ∈ s.running ++ _
    exact List.mem_append_left _ hr

theorem foldl_fire_preserves (P : Listener → Prop) (due : Nat → Bool)
    (dur : Nat → Nat → Nat) (hP : ∀ i s, P s → P (fire due dur i s)) :
    ∀ (l : List Nat) (s : Listener), P s → P (l.foldl (fun st i => fire due dur i st) s) := by
  intro l
  induction l with
  | nil => intro s hs; exact hs
  | cons i l ih => intro s hs; exact ih _ (hP i s hs)

theorem fireAll_preserves (P : Listener → Prop) (due : Nat → Bool) (dur : Nat → Nat → Nat)
    (hP : ∀ i s, P s → P (fire due dur i s)) (s : Listener) (h : P s) :
    P (fireAll due dur s) :=
  foldl_fire_preserves P due dur hP _ s h

theorem fireAll_timers (due : Nat → Bool) (dur : Nat → Nat → Nat) (s : Listener) :
    (fireAll due dur s).timers = s.timers :=
  fireAll_preserves (fun st => st.timers = s.timers) due dur
    (fun i st h => (fire_timers due dur i st).trans h) s rfl

theorem fireAll_length (due : Nat → Bool) (dur : Nat → Nat → Nat) (s : Listener) :
    (fireAll due dur s).heap.length = s.heap.length :=
  fireAll_preserves (fun st => st.heap.length = s.heap.length) due dur
    (fun i st h => (fire_length due dur i st).trans h) s rfl

theorem foldl_delete (rs : List Running) :
    ∀ st : Listener,
      rs.foldl (fun st r => callback_delete r.e st) st
        = { st with timers := rs.foldl (fun m r => mapDelete m r.e.Name) st.timers } := by
  induction rs with
  | nil => intro st; rfl
  | cons r rs ih =>
    intro st
    simp only [List.foldl_cons]
    rw [ih]
    rfl

theorem finish_eq (due : Nat → Bool) (s : Listener) :
    finish due s =
      { timers := (s.running.filter (fun r => due r.returns)).foldl
          (fun m r => mapDelete m r.e.Name) s.timers
        heap := s.heap
        running := s.running.filter (fun r => !due r.returns)
        calls := s.calls } := by
  unfold finish
  rw [foldl_delete]

theorem mapGet_foldl_delete_none (rs : List Running) :
    ∀ (m : List (Str × Nat)) (x : Str), mapGet m x = none →
      mapGet (rs.foldl (fun m r => mapDelete m r.e.Name) m) x = none := by
  induction rs with
  | nil => intro m x h; exact h
  | cons r rs ih =>
    intro m x h
    simp only [List.foldl_cons]
    apply ih
    rw [mapGet_mapDelete, h]
    simp

theorem mapGet_foldl_delete_other (rs : List Running) :
    ∀ (m : List (Str × Nat)) (x : Str), (∀ r ∈ rs, r.e.Name ≠ x) →
      mapGet (rs.foldl (fun m r => mapDelete m r.e.Name) m) x = mapGet m x := by
  induction rs with
  | nil => intro m x _; rfl
  | cons r rs ih =>
    intro m x h
    simp only [List.foldl_cons]
    rw [ih _ x (fun r' hr' => h r' (by simp [hr'])), mapGet_mapDelete,
      if_neg (h r (by simp))]

theorem mapGet_foldl_delete_hit (rs : List Running) :
    ∀ (m : List (Str × Nat)) (x : Str), (∃ r ∈ rs, r.e.Name = x) →
      mapGet (rs.foldl (fun m r => mapDelete m r.e.Name) m) x = none := by
  induction rs with
  | nil => intro m x h; obtain ⟨r, hr, _⟩ := h; simp at hr
  | cons r rs ih =>
    intro m x h
    simp only [List.foldl_cons]
    by_cases hx : r.e.Name = x
    · apply mapGet_foldl_delete_none
      rw [mapGet_mapDelete, if_pos hx]
    · obtain ⟨r', hr', hx'⟩ := h
      apply ih
      rcases List.mem_cons.1 hr' with h1 | h1
      · rw [h1] at hx'
        exact absurd hx' hx
      · exact ⟨r', h1, hx'⟩

/-! ## A key first seen through a `.part` path (C10) -/

theorem SplitN_three_eq (s a b r : Str) (c : Char) (h : SplitN s c 3 = [a, b, r]) :
    s = a ++ c :: (b ++ c :: r) := by
  unfold SplitN at h
  cases h1 : IndexByte s c with
  | none => rw [h1] at h; simp at h
  | some m =>
    rw [h1] at h
    obtain ⟨x, hx1, hx2, _⟩ := IndexByte_some s c m h1
    simp only [hx2] at h
    unfold SplitN at h
    cases h2 : IndexByte x c with
    | none => rw [h2] at h; simp at h
    | some m' =>
      rw [h2] at h
      obtain ⟨y, hy1, hy2, _⟩ := IndexByte_some x c m' h2
      simp only [hy2, SplitN, List.cons.injEq, and_true] at h
      obtain ⟨ha, hb, hr⟩ := h
      rw [← ha, ← hb, ← hr, ← hy1, ← hx1]

theorem TrimSuffix_length_le (s suffix : Str) : (TrimSuffix s suffix).length ≤ s.length := by
  unfold TrimSuffix
  split_ifs
  · simp
  · exact Nat.le_refl _

/-- The key of a `.part` path is shorter than the path. -/
theorem logicalName_ne_self (p name : Str) (hp : HasSuffix p ".part".toList = true)
    (h : logicalName p = some name) : name ≠ p := by
  unfold logicalName at h
  rw [hp] at h
  simp only [if_true] at h
  intro e
  match hs : SplitN p '.' 3, h with
  | [a, b, r], h =>
    have hp' := SplitN_three_eq p a b r '.' hs
    have hn : name = a ++ ".".toList ++ TrimSuffix r ".part".toList := (Option.some.inj h).symm
    have hl := congrArg List.length (e.symm.trans hn)
    have h1 := congrArg List.length hp'
    have h2 := TrimSuffix_length_le r ".part".toList
    simp only [List.length_append, List.length_cons] at hl h1
    have h3 : (".".toList : Str).length = 1 := rfl
    omega

theorem classify_self (path : Str) (h : classify path ≠ none)
    (hp : HasSuffix path ".part".toList = false) : classify path = some path := by
  unfold classify at h ⊢
  split_ifs at h ⊢ with h1
  · exact absurd rfl h
  · unfold logicalName
    rw [hp]
    rfl

theorem heldBy_ne (name p path : Str)
    (hself : classify name = none ∨ classify name = some name)
    (hkey : classify p = some name) (hp : HasSuffix p ".part".toList = true)
    (h : heldBy name p path) : path ≠ name := by
  intro e
  rw [e] at h
  rcases hself with h0 | h0
  · exact h.1 h0
  · have hpe : name = p := h.2 h0
    rw [← hpe, classify_of_part name (by rw [hpe]; exact hp)] at hkey
    exact logicalName_ne_self name name (by rw [hpe]; exact hp) hkey rfl

theorem partHeld_fire (name p : Str) (due : Nat → Bool) (dur : Nat → Nat → Nat) (i : Nat)
    (s : Listener) (h : partHeld name p s) : partHeld name p (fire due dur i s) := by
  obtain ⟨ha, hb, hr, hc0⟩ := h
  rcases fire_cases due dur i s with h | ⟨t, d, hi, _, _, h⟩
  · rw [h]
    exact ⟨ha, hb, hr, hc0⟩
  · rw [h]
    have ht := hb i t hi
    refine ⟨ha, ?_, ?_, ?_⟩
    · intro j t' hj
      obtain ⟨t0, h0, hf⟩ := heap_set_idle s.heap i j t t' hi hj
      rw [hf]
      exact hb j t0 h0
    · intro r hrm
      have hrm' : r ∈ s.running ++ [Running.mk (d + dur i d) t.f] := hrm
      rcases List.mem_append.1 hrm' with h1 | h1
      · exact hr r h1
      · rw [List.mem_singleton.1 h1]
        exact ht
    · intro c hc
      have hc' : c ∈ s.calls ++ [Call.mk d t.f.Name i] := hc
      rcases List.mem_append.1 hc' with h1 | h1
      · exact hc0 c h1
      · rw [List.mem_singleton.1 h1]
        exact ht

theorem notSeen_fire (name : Str) (due : Nat → Bool) (dur : Nat → Nat → Nat) (i : Nat)
    (s : Listener) (h : notSeen name s) : notSeen name (fire due dur i s) := by
  obtain ⟨ha, hb, hr, hc0⟩ := h
  rcases fire_cases due dur i s with h | ⟨t, d, hi, _, _, h⟩
  · rw [h]
    exact ⟨ha, hb, hr, hc0⟩
  · rw [h]
    have ht := hb i t hi
    refine ⟨ha, ?_, ?_, ?_⟩
    · intro j t' hj
      obtain ⟨t0, h0, hf⟩ := heap_set_idle s.heap i j t t' hi hj
      rw [hf]
      exact hb j t0 h0
    · intro r hrm
      have hrm' : r ∈ s.running ++ [Running.mk (d + dur i d) t.f] := hrm
      rcases List.mem_append.1 hrm' with h1 | h1
      · exact hr r h1
      · rw [List.mem_singleton.1 h1]
        exact ht
    · intro c hc
      have hc' : c ∈ s.calls ++ [Call.mk d t.f.Name i] := hc
      rcases List.mem_append.1 hc' with h1 | h1
      · exact hc0 c h1
      · rw [List.mem_singleton.1 h1]
        exact ht

theorem partHeld_finish (name p : Str)
    (hself : classify name = none ∨ classify name = some name)
    (hkey : classify p = some name) (hp : HasSuffix p ".part".toList = true)
    (due : Nat → Bool) (s : Listener) (h : partHeld name p s) :
    partHeld name p (finish due s) := by
  obtain ⟨ha, hb, hr, hc0⟩ := h
  rw [finish_eq]
  refine ⟨?_, hb, ?_, hc0⟩
  · show mapGet (List.foldl _ s.timers _) name ≠ none
    rw [mapGet_foldl_delete_other]
    · exact ha
    · intro r hrm
      exact heldBy_ne name p _ hself hkey hp (hr r (List.mem_of_mem_filter hrm))
  · intro r hrm
    exact hr r (List.mem_of_mem_filter hrm)

theorem notSeen_finish (name : Str) (due : Nat → Bool) (s : Listener)
    (h : notSeen name s) : notSeen name (finish due s) := by
  obtain ⟨ha, hb, hr, hc0⟩ := h
  rw [finish_eq]
  refine ⟨?_, hb, ?_, hc0⟩
  · exact mapGet_foldl_delete_none _ _ _ ha
  · intro r hrm
    exact hr r (List.mem_of_mem_filter hrm)

theorem partHeld_step (name p : Str) (now : Nat) (e : Event) (s : Listener)
    (h : partHeld name p s) : partHeld name p (event_listener_step now e s) := by
  obtain ⟨ha, hb, hr, hc0⟩ := h
  cases hk : eventKey e with
  | none => rw [step_of_key_none now e s hk]; exact ⟨ha, hb, hr, hc0⟩
  | some k =>
    refine ⟨?_, ?_, ?_, ?_⟩
    · by_cases hx : k = name
      · subst hx
        rw [step_of_key_some now e s k hk]
        cases hg : mapGet s.timers k with
        | none => exact absurd hg ha
        | some t0 =>
          show mapGet s.timers k ≠ none
          rw [hg]
          simp
      · rw [step_timers now e s k name hk hx]
        exact ha
    · intro j t' hj
      rcases step_heap now e s k hk j t' hj with ⟨t, ht, hf⟩ | ⟨hg, _, hf⟩
      · rw [hf]
        exact hb j t ht
      · rw [hf]
        have hc := eventKey_classify e k hk
        refine ⟨by simp [hc], fun hcl => ?_⟩
        rw [hc] at hcl
        have : k = name := Option.some.inj hcl
        subst this
        exact absurd hg ha
    · rw [step_running]
      exact hr
    · rw [step_calls]
      exact hc0

theorem notSeen_step (name : Str) (now : Nat) (e : Event) (s : Listener)
    (he : eventKey e ≠ some name) (h : notSeen name s) :
    notSeen name (event_listener_step now e s) := by
  obtain ⟨ha, hb, hr, hc0⟩ := h
  cases hk : eventKey e with
  | none => rw [step_of_key_none now e s hk]; exact ⟨ha, hb, hr, hc0⟩
  | some k =>
    have hx : k ≠ name := fun e' => he (by rw [hk, e'])
    refine ⟨?_, ?_, ?_, ?_⟩
    · rw [step_timers now e s k name hk hx]
      exact ha
    · intro j t' hj
      rcases step_heap now e s k hk j t' hj with ⟨t, ht, hf⟩ | ⟨_, _, hf⟩
      · rw [hf]
        exact hb j t ht
      · rw [hf]
        have hc := eventKey_classify e k hk
        refine ⟨by simp [hc], ?_⟩
        rw [hc]
        exact fun e' => hx (Option.some.inj e')
    · rw [step_running]
      exact hr
    · rw [step_calls]
      exact hc0

/-- The first event for a key turns the state before it into a state held by
its path. -/
theorem notSeen_first (name : Str) (now : Nat) (e : Event) (s : Listener)
    (he : eventKey e = some name) (h : notSeen name s) :
    partHeld name e.Name (event_listener_step now e s) := by
  have hc := eventKey_classify e name he
  obtain ⟨ha, hb, hr, hc0⟩ := h
  refine ⟨?_, ?_, ?_, ?_⟩
  · rw [step_of_key_some now e s name he, ha]
    show mapGet (mapSet s.timers name s.heap.length) name ≠ none
    rw [mapGet_mapSet]
    simp
  · intro j t' hj
    rcases step_heap now e s name he j t' hj with ⟨t, ht, hf⟩ | ⟨_, _, hf⟩
    · rw [hf]
      have := hb j t ht
      exact ⟨this.1, fun hcl => absurd hcl this.2⟩
    · rw [hf]
      exact ⟨by simp [hc], fun _ => rfl⟩
  · rw [step_running]
    intro r hrm
    have := hr r hrm
    exact ⟨this.1, fun hcl => absurd hcl this.2⟩
  · rw [step_calls]
    intro c hcm
    have := hc0 c hcm
    exact ⟨this.1, fun hcl => absurd hcl this.2⟩

theorem notSeen_advance (name : Str) (dur : Nat → Nat → Nat) (now : Nat) (s : Listener)
    (h : notSeen name s) : notSeen name (advance dur now s) := by
  unfold advance
  apply notSeen_finish
  exact fireAll_preserves _ _ _ (fun i st => notSeen_fire name _ _ i st) s h

theorem partHeld_advance (name p : Str)
    (hself : classify name = none ∨ classify name = some name)
    (hkey : classify p = some name) (hp : HasSuffix p ".part".toList = true)
    (dur : Nat → Nat → Nat) (now : Nat) (s : Listener) (h : partHeld name p s) :
    partHeld name p (advance dur now s) := by
  unfold advance
  apply partHeld_finish name p hself hkey hp
  exact fireAll_preserves _ _ _ (fun i st => partHeld_fire name p _ _ i st) s h

theorem notSeen_runEvents (name : Str) (dur : Nat → Nat → Nat) :
    ∀ (evs : List (Nat × Event)) (s : Listener),
      (∀ te ∈ evs, eventKey te.2 ≠ some name) → notSeen name s →
      notSeen name (runEvents dur evs s) := by
  intro evs
  induction evs with
  | nil => intro s _ h; exact h
  | cons te evs ih =>
    intro s hevs h
    unfold runEvents
    simp only [List.foldl_cons]
    apply ih
    · exact fun x hx => hevs x (by simp [hx])
    · exact notSeen_step name _ _ _ (hevs te (by simp)) (notSeen_advance name dur _ s h)

theorem partHeld_runEvents (name p : Str)
    (hself : classify name = none ∨ classify name = some name)
    (hkey : classify p = some name) (hp : HasSuffix p ".part".toList = true)
    (dur : Nat → Nat → Nat) :
    ∀ (evs : List (Nat × Event)) (s : Listener),
      partHeld name p s → partHeld name p (runEvents dur evs s) := by
  intro evs
  induction evs with
  | nil => intro s h; exact h
  | cons te evs ih =>
    intro s h
    unfold runEvents
    simp only [List.foldl_cons]
    apply ih
    exact partHeld_step name p _ _ _ (partHeld_advance name p hself hkey hp dur _ s h)

theorem process_file_of_part (os : OS) (path : Str)
    (h : HasSuffix path ".part".toList = true) :
    process_file os path = ([], Exit.returned) := by
  unfold process_file ignorable
  rw [h]
  simp only [Bool.or_true, if_true]

theorem notSeen_init (name : Str) : notSeen name Listener.init :=
  ⟨rfl, fun i t h => by simp [Listener.init] at h, fun r h => by simp [Listener.init] at h,
    fun c h => by simp [Listener.init] at h⟩

theorem runEvents_append (dur : Nat → Nat → Nat) (pre post : List (Nat × Event))
    (s : Listener) : runEvents dur (pre ++ post) s = runEvents dur post (runEvents dur pre s) := by
  unfold runEvents
  rw [List.foldl_append]

theorem runEvents_cons (dur : Nat → Nat → Nat) (te : Nat × Event) (post : List (Nat × Event))
    (s : Listener) :
    runEvents dur (te :: post) s
      = runEvents dur post (event_listener_step te.1 te.2 (advance dur te.1 s)) := by
  unfold runEvents
  rw [List.foldl_cons]

theorem partHeld_event_listener (dur : Nat → Nat → Nat) (pre post : List (Nat × Event))
    (tp : Nat) (ep : Event) (name : Str) (hpre : ∀ te ∈ pre, eventKey te.2 ≠ some name)
    (hfirst : eventKey ep = some name)
    (hpart : HasSuffix ep.Name ".part".toList = true)
    (hself : classify name = none ∨ classify name = some name) :
    partHeld name ep.Name (event_listener dur (pre ++ (tp, ep) :: post) Listener.init) := by
  have hkey := eventKey_classify ep name hfirst
  unfold event_listener drain
  apply partHeld_finish name ep.Name hself hkey hpart
  apply fireAll_preserves _ _ _ (fun i st => partHeld_fire name ep.Name _ _ i st)
  rw [runEvents_append, runEvents_cons]
  apply partHeld_runEvents name ep.Name hself hkey hpart
  apply notSeen_first name tp ep _ hfirst
  apply notSeen_advance
  exact notSeen_runEvents name dur pre _ hpre (notSeen_init name)

/-- C10, as stated, fails when the key is itself a path that the loop keys under
another name. The first event for the key `x.y.part` has the path
`x.z.y.part.part`; the timer made for the path `x.y.part` (key `x.part`) calls
`process_file` on `x.y.part`, the key itself, and deletes that key from the
map, so that the next event for the key makes a new timer, which calls
`process_file` on `x.w.y.part.part` and not on the original path. -/
theorem C10_counterexample :
    eventKey ⟨"x.z.y.part.part".toList, Create⟩ = some "x.y.part".toList ∧
    HasSuffix "x.z.y.part.part".toList ".part".toList = true ∧
    classify "x.w.y.part.part".toList = some "x.y.part".toList ∧
    classify "x.y.part".toList = some "x.part".toList ∧
    (event_listener atOnce
        [(0, ⟨"x.z.y.part.part".toList, Create⟩), (0, ⟨"x.y.part".toList, Create⟩),
          (3000000000, ⟨"x.w.y.part.part".toList, Create⟩)] Listener.init).calls
      = [⟨2000000000, "x.z.y.part.part".toList, 0⟩, ⟨2000000000, "x.y.part".toList, 1⟩,
          ⟨5000000000, "x.w.y.part.part".toList, 2⟩] := by
  decide

/-- C10, amended: let the first event that the loop keys under `name` have a
path ending in `.part`, and let `name` not be a path that the loop itself keys
under another name (the loop skips `name` or keys it under `name`; this leaves
out only keys that are `.part` paths with two or more dots). Then, whatever
events come before and after and however long the calls of `process_file`
take, the key is never removed from the map, every call of `process_file` for a
path with key `name` is a call on that first `.part` path and returns at the
ignore-suffix check, and `process_file` is never called on `name` itself. -/
theorem C10_key_first_seen_as_part_is_never_extracted (dur : Nat → Nat → Nat)
    (pre post : List (Nat × Event)) (tp : Nat) (ep : Event) (name : Str)
    (hpre : ∀ te ∈ pre, eventKey te.2 ≠ some name)
    (hfirst : eventKey ep = some name)
    (hpart : HasSuffix ep.Name ".part".toList = true)
    (hself : classify name = none ∨ classify name = some name) :
    mapGet (event_listener dur (pre ++ (tp, ep) :: post) Listener.init).timers name ≠ none ∧
    ∀ c ∈ (event_listener dur (pre ++ (tp, ep) :: post) Listener.init).calls,
      c.path ≠ name ∧
      (classify c.path = some name →
        c.path = ep.Name ∧ ∀ os : OS, process_file os c.path = ([], Exit.returned)) := by
  have hkey := eventKey_classify ep name hfirst
  obtain ⟨h1, _, _, h3⟩ :=
    partHeld_event_listener dur pre post tp ep name hpre hfirst hpart hself
  refine ⟨h1, fun c hc =>
    ⟨heldBy_ne name ep.Name c.path hself hkey hpart (h3 c hc), fun hcl => ?_⟩⟩
  have hc2 := (h3 c hc).2 hcl
  refine ⟨hc2, fun os => ?_⟩
  rw [hc2]
  exact process_file_of_part os ep.Name hpart

/-- C10, amended, on a download seen first as `movie.zip.part`, key
`movie.part`, with calls of `process_file` that take one second: the events
after the first are a second event for the `.part` path and two events for the
final file `movie.zip`, and an unrelated file comes before. -/
theorem C10_key_first_seen_as_part_is_never_extracted_witness :
    mapGet (event_listener oneSecond
      ([(0, ⟨"notes.txt".toList, Create⟩)] ++
        (1000000000, ⟨"movie.zip.part".toList, Create⟩) ::
          [(4000000000, ⟨"movie.zip.part".toList, Write⟩),
            (5000000000, ⟨"movie.zip".toList, Create⟩),
            (9000000000, ⟨"movie.zip".toList, Write⟩)]) Listener.init).timers
        "movie.part".toList ≠ none ∧
    ∀ c ∈ (event_listener oneSecond
      ([(0, ⟨"notes.txt".toList, Create⟩)] ++
        (1000000000, ⟨"movie.zip.part".toList, Create⟩) ::
          [(4000000000, ⟨"movie.zip.part".toList, Write⟩),
            (5000000000, ⟨"movie.zip".toList, Create⟩),
            (9000000000, ⟨"movie.zip".toList, Write⟩)]) Listener.init).calls,
      c.path ≠ "movie.part".toList ∧
      (classify c.path = some "movie.part".toList →
        c.path = "movie.zip.part".toList ∧
          ∀ os : OS, process_file os c.path = ([], Exit.returned)) :=
  C10_key_first_seen_as_part_is_never_extracted oneSecond [(0, ⟨"notes.txt".toList, Create⟩)]
    [(4000000000, ⟨"movie.zip.part".toList, Write⟩),
      (5000000000, ⟨"movie.zip".toList, Create⟩), (9000000000, ⟨"movie.zip".toList, Write⟩)]
    1000000000 ⟨"movie.zip.part".toList, Create⟩ "movie.part".toList
    (by decide) (by decide) (by decide) (Or.inl (by decide))

/-! ## The event held by a timer (C3) -/

theorem holds_fire (n : Nat) (e0 : Event) (due : Nat → Bool) (dur : Nat → Nat → Nat)
    (i : Nat) (s : Listener) (h : holds n e0 s) : holds n e0 (fire due dur i s) := by
  obtain ⟨⟨t, ht, hf⟩, hc⟩ := h
  refine ⟨?_, ?_⟩
  · obtain ⟨t', ht', hf'⟩ := fire_keeps due dur i s n t ht
    exact ⟨t', ht', hf'.trans hf⟩
  · rcases fire_cases due dur i s with h | ⟨t0, d, h0, _, _, h⟩
    · rw [h]
      exact hc
    · rw [h]
      intro c hcm hcn
      have hcm' : c ∈ s.calls ++ [Call.mk d t0.f.Name i] := hcm
      rcases List.mem_append.1 hcm' with h1 | h1
      · exact hc c h1 hcn
      · rw [List.mem_singleton.1 h1] at hcn ⊢
        have hin : i = n := hcn
        rw [hin, ht] at h0
        rw [← Option.some.inj h0, hf]

theorem holds_finish (n : Nat) (e0 : Event) (due : Nat → Bool) (s : Listener)
    (h : holds n e0 s) : holds n e0 (finish due s) := by
  rw [finish_eq]
  exact h

theorem holds_step (n : Nat) (e0 : Event) (now : Nat) (e : Event) (s : Listener)
    (h : holds n e0 s) : holds n e0 (event_listener_step now e s) := by
  obtain ⟨⟨t, ht, hf⟩, hc⟩ := h
  refine ⟨?_, ?_⟩
  · obtain ⟨t', ht', hf'⟩ := step_keeps now e s n t ht
    exact ⟨t', ht', hf'.trans hf⟩
  · rw [step_calls]
    exact hc

theorem holds_advance (n : Nat) (e0 : Event) (dur : Nat → Nat → Nat) (now : Nat)
    (s : Listener) (h : holds n e0 s) : holds n e0 (advance dur now s) := by
  unfold advance
  apply holds_finish
  exact fireAll_preserves _ _ _ (fun i st => holds_fire n e0 _ _ i st) s h

theorem callsKnown_fire (due : Nat → Bool) (dur : Nat → Nat → Nat) (i : Nat) (s : Listener)
    (h : callsKnown s) : callsKnown (fire due dur i s) := by
  intro c hc
  rw [fire_length]
  rcases fire_cases due dur i s with h1 | ⟨t0, d, h0, _, _, h1⟩
  · rw [h1] at hc
    exact h c hc
  · rw [h1] at hc
    have hc' : c ∈ s.calls ++ [Call.mk d t0.f.Name i] := hc
    rcases List.mem_append.1 hc' with h2 | h2
    · exact h c h2
    · rw [List.mem_singleton.1 h2]
      show i < s.heap.length
      by_contra hlt
      rw [List.getElem?_eq_none (by omega)] at h0
      cases h0

theorem advance_length (dur : Nat → Nat → Nat) (now : Nat) (s : Listener) :
    (advance dur now s).heap.length = s.heap.length := by
  unfold advance
  rw [finish_eq]
  exact fireAll_length _ dur s

theorem advance_calls_mono (dur : Nat → Nat → Nat) (now : Nat) (s : Listener) (c : Call)
    (hc : c ∈ s.calls) : c ∈ (advance dur now s).calls := by
  unfold advance
  rw [finish_eq]
  exact fireAll_preserves (fun st => c ∈ st.calls) _ dur
    (fun i st h => fire_calls_mono _ dur i st c h) s hc

theorem callsKnown_advance (dur : Nat → Nat → Nat) (now : Nat) (s : Listener)
    (h : callsKnown s) : callsKnown (advance dur now s) := by
  unfold advance
  rw [finish_eq]
  exact fireAll_preserves callsKnown _ dur (fun i st hs => callsKnown_fire _ dur i st hs) s h

theorem callsKnown_step (now : Nat) (e : Event) (s : Listener) (h : callsKnown s) :
    callsKnown (event_listener_step now e s) := by
  intro c hc
  rw [step_calls] at hc
  exact Nat.lt_of_lt_of_le (h c hc) (step_length_le now e s)

theorem callsKnown_runEvents (dur : Nat → Nat → Nat) :
    ∀ (evs : List (Nat × Event)) (s : Listener), callsKnown s →
      callsKnown (runEvents dur evs s) := by
  intro evs
  induction evs with
  | nil => intro s h; exact h
  | cons te evs ih =>
    intro s h
    rw [runEvents_cons]
    exact ih _ (callsKnown_step _ _ _ (callsKnown_advance dur _ s h))

/-- An armed timer whose instant is due expires in `fireAll`: its call is
recorded and its callback is in progress. -/
theorem foldl_fire_fires (due : Nat → Bool) (dur : Nat → Nat → Nat) (n : Nat) (t : Timer)
    (d : Nat) (hw : t.when = some d) (hd : due d = true) :
    ∀ (l : List Nat) (s : Listener), n ∈ l → s.heap[n]? = some t →
      Call.mk d t.f.Name n ∈ (l.foldl (fun st i => fire due dur i st) s).calls ∧
      Running.mk (d + dur n d) t.f ∈ (l.foldl (fun st i => fire due dur i st) s).running := by
  intro l
  induction l with
  | nil => intro s hn; simp at hn
  | cons j l ih =>
    intro s hn hs
    simp only [List.foldl_cons]
    by_cases hj : j = n
    · subst hj
      apply foldl_fire_preserves
        (fun st => Call.mk d t.f.Name j ∈ st.calls ∧ Running.mk (d + dur j d) t.f ∈ st.running)
        due dur
        (fun i st h => ⟨fire_calls_mono due dur i st _ h.1, fire_running_mono due dur i st _ h.2⟩)
      rw [fire_of_due due dur j s t d hs hw hd]
      exact ⟨by simp [callback_process], by simp [callback_process]⟩
    · apply ih
      · rcases List.mem_cons.1 hn with h1 | h1
        · exact absurd h1.symm hj
        · exact h1
      · rw [fire_other due dur j s n hj]
        exact hs

theorem fireAll_fires (due : Nat → Bool) (dur : Nat → Nat → Nat) (n : Nat) (t : Timer)
    (d : Nat) (s : Listener) (hs : s.heap[n]? = some t) (hw : t.when = some d)
    (hd : due d = true) :
    Call.mk d t.f.Name n ∈ (fireAll due dur s).calls ∧
    Running.mk (d + dur n d) t.f ∈ (fireAll due dur s).running := by
  unfold fireAll
  apply foldl_fire_fires due dur n t d hw hd _ s _ hs
  rw [List.mem_range]
  by_contra hlt
  rw [List.getElem?_eq_none (by omega)] at hs
  cases hs

theorem reset_armed (heap : List Timer) (n : Nat) (t : Timer) (d : Nat)
    (h : heap[n]? = some t) : (Reset heap n d)[n]? = some (Timer.mk t.f (some d)) := by
  unfold Reset
  rw [List.getElem?_modify, h]
  simp

/-- The events coalesced into the entry of the timer `n` leave the event held
by the timer as it is and arm the timer for the last of them. -/
theorem coalesced_runEvents (dur : Nat → Nat → Nat) (name : Str) (n : Nat) (e0 : Event) :
    ∀ (rest : List (Nat × Event)) (s : Listener) (t : Nat),
      holds n e0 s → s.heap[n]? = some (Timer.mk e0 (some (t + wait))) →
      coalescedInto dur name n s rest = true →
      holds n e0 (runEvents dur rest s) ∧
      (runEvents dur rest s).heap[n]? = some (Timer.mk e0 (some (lastInstant t rest + wait))) := by
  intro rest
  induction rest with
  | nil => intro s t h ha _; exact ⟨h, ha⟩
  | cons te rest ih =>
    intro s t h _ hco
    unfold coalescedInto at hco
    simp only [Bool.and_eq_true, beq_iff_eq] at hco
    obtain ⟨⟨hk, hg⟩, hrest⟩ := hco
    rw [runEvents_cons]
    have h1 := holds_advance n e0 dur te.1 s h
    have h2 := holds_step n e0 te.1 te.2 _ h1
    obtain ⟨⟨t', ht', hf'⟩, _⟩ := h1
    have harm : (event_listener_step te.1 te.2 (advance dur te.1 s)).heap[n]?
        = some (Timer.mk e0 (some (te.1 + wait))) := by
      rw [step_found te.1 te.2 _ name n hk hg]
      show (Reset (advance dur te.1 s).heap n (te.1 + wait))[n]? = _
      rw [reset_armed _ n t' _ ht', hf']
    exact ih _ te.1 h2 harm hrest

/-- C3, as stated, fails: the events for `archive.a1b2c3.zip.part` and, one
second later, for `archive.zip` have the same key and share one timer; its
callback calls `process_file` on the path of the first event, not on the path
of the most recent one. -/
theorem C3_counterexample :
    eventKey ⟨"archive.a1b2c3.zip.part".toList, Create⟩ = some "archive.zip".toList ∧
    eventKey ⟨"archive.zip".toList, Create⟩ = some "archive.zip".toList ∧
    coalescedInto atOnce "archive.zip".toList 0
      (event_listener_step 0 ⟨"archive.a1b2c3.zip.part".toList, Create⟩ Listener.init)
      [(1000000000, ⟨"archive.zip".toList, Create⟩)] = true ∧
    (event_listener atOnce
        [(0, ⟨"archive.a1b2c3.zip.part".toList, Create⟩),
          (1000000000, ⟨"archive.zip".toList, Create⟩)] Listener.init).calls
      = [⟨3000000000, "archive.a1b2c3.zip.part".toList, 0⟩] := by
  decide

/-- C3, amended: after any events, let an event `e0` find no entry for its key
and so make the entry and its timer, and let every event of `rest` have the
same key and find that entry (the events are coalesced into it). Then, however
long the calls of `process_file` take and whatever other timers are armed, every
call made by the timer of the entry is a call on the path of `e0`, the event
that created the entry, and such a call is made at the instant of the last of
the events plus the quiet period. -/
theorem C3_signal_carries_path_of_creating_event (dur : Nat → Nat → Nat)
    (pre rest : List (Nat × Event)) (t0 : Nat) (e0 : Event) (name : Str)
    (hnew : mapGet (advance dur t0 (runEvents dur pre Listener.init)).timers name = none)
    (h0 : eventKey e0 = some name)
    (hco : coalescedInto dur name (runEvents dur pre Listener.init).heap.length
      (event_listener_step t0 e0 (advance dur t0 (runEvents dur pre Listener.init))) rest
        = true) :
    (∀ c ∈ (event_listener dur (pre ++ (t0, e0) :: rest) Listener.init).calls,
      c.timer = (runEvents dur pre Listener.init).heap.length → c.path = e0.Name) ∧
    Call.mk (lastInstant t0 rest + wait) e0.Name (runEvents dur pre Listener.init).heap.length
      ∈ (event_listener dur (pre ++ (t0, e0) :: rest) Listener.init).calls := by
  have hk0 : callsKnown (runEvents dur pre Listener.init) :=
    callsKnown_runEvents dur pre _ (fun c hc => by simp [Listener.init] at hc)
  have hk1 := callsKnown_advance dur t0 _ hk0
  have hlen := advance_length dur t0 (runEvents dur pre Listener.init)
  have hstep := step_first t0 e0 _ name h0 hnew
  have harm : (event_listener_step t0 e0
      (advance dur t0 (runEvents dur pre Listener.init))).heap[
        (runEvents dur pre Listener.init).heap.length]?
      = some (Timer.mk e0 (some (t0 + wait))) := by
    rw [hstep, ← hlen]
    show ((advance dur t0 (runEvents dur pre Listener.init)).heap ++ [_])[_]? = _
    rw [List.getElem?_append_right (Nat.le_refl _)]
    simp
  have hholds : holds (runEvents dur pre Listener.init).heap.length e0
      (event_listener_step t0 e0 (advance dur t0 (runEvents dur pre Listener.init))) := by
    refine ⟨⟨_, harm, rfl⟩, ?_⟩
    rw [step_calls]
    intro c hc hcn
    have := hk1 c hc
    rw [hlen] at this
    omega
  obtain ⟨hfin, hfarm⟩ :=
    coalesced_runEvents dur name _ e0 rest _ t0 hholds harm hco
  have hrun : runEvents dur (pre ++ (t0, e0) :: rest) Listener.init
      = runEvents dur rest
          (event_listener_step t0 e0 (advance dur t0 (runEvents dur pre Listener.init))) := by
    rw [runEvents_append, runEvents_cons]
  unfold event_listener drain
  rw [hrun, finish_eq]
  constructor
  · exact (fireAll_preserves _ _ dur (fun i st => holds_fire _ e0 _ dur i st) _ hfin).2
  · exact (fireAll_fires _ dur _ _ _ _ hfarm rfl rfl).1

/-- C3, amended, at three events for the key `archive.zip`, the first of them
for a `.part` path, after an event for `notes.txt` whose timer is armed when
they arrive; the calls of `process_file` take one second. -/
theorem C3_signal_carries_path_of_creating_event_witness :
    (∀ c ∈ (event_listener oneSecond
        ([(0, ⟨"notes.txt".toList, Create⟩)] ++
          (500000000, ⟨"archive.a1b2c3.zip.part".toList, Create⟩) ::
            [(1000000000, ⟨"archive.zip".toList, Create⟩),
              (2500000000, ⟨"archive.zip".toList, Write⟩)]) Listener.init).calls,
      c.timer = (runEvents oneSecond [(0, ⟨"notes.txt".toList, Create⟩)]
          Listener.init).heap.length →
        c.path = (⟨"archive.a1b2c3.zip.part".toList, Create⟩ : Event).Name) ∧
    Call.mk
        (lastInstant 500000000
          [(1000000000, ⟨"archive.zip".toList, Create⟩),
            (2500000000, ⟨"archive.zip".toList, Write⟩)] + wait)
        (⟨"archive.a1b2c3.zip.part".toList, Create⟩ : Event).Name
        (runEvents oneSecond [(0, ⟨"notes.txt".toList, Create⟩)] Listener.init).heap.length
      ∈ (event_listener oneSecond
        ([(0, ⟨"notes.txt".toList, Create⟩)] ++
          (500000000, ⟨"archive.a1b2c3.zip.part".toList, Create⟩) ::
            [(1000000000, ⟨"archive.zip".toList, Create⟩),
              (2500000000, ⟨"archive.zip".toList, Write⟩)]) Listener.init).calls :=
  C3_signal_carries_path_of_creating_event oneSecond [(0, ⟨"notes.txt".toList, Create⟩)]
    [(1000000000, ⟨"archive.zip".toList, Create⟩), (2500000000, ⟨"archive.zip".toList, Write⟩)]
    500000000 ⟨"archive.a1b2c3.zip.part".toList, Create⟩ "archive.zip".toList
    (by decide) (by decide) (by decide)

/-! ## The callback and the map (C2) -/

/-- C2, as stated, fails. With calls of `process_file` that take one second, the
timer made for `a.zip` at instant 0 expires at 2 s; when a write event arrives
at 2.5 s, `process_file` has been called and the key is still in the map, so
the event resets the fired timer and makes no new one, and `process_file` is
called again at 4.5 s. And with calls that return at once, the timer made for
`archive.a1b2c3.zip.part` is stored under `archive.zip`; after it has fired and
its callback has ended, the key is still in the map, and the next event for
`archive.zip` resets the fired timer. -/
theorem C2_counterexample :
    (advance oneSecond 2500000000
        (runEvents oneSecond [(0, ⟨"a.zip".toList, Create⟩)] Listener.init)).calls
      = [⟨2000000000, "a.zip".toList, 0⟩] ∧
    mapGet (advance oneSecond 2500000000
        (runEvents oneSecond [(0, ⟨"a.zip".toList, Create⟩)] Listener.init)).timers
      "a.zip".toList = some 0 ∧
    (runEvents oneSecond
        [(0, ⟨"a.zip".toList, Create⟩), (2500000000, ⟨"a.zip".toList, Write⟩)]
        Listener.init).heap
      = [⟨⟨"a.zip".toList, Create⟩, some 4500000000⟩] ∧
    (event_listener oneSecond
        [(0, ⟨"a.zip".toList, Create⟩), (2500000000, ⟨"a.zip".toList, Write⟩),
          (4200000000, ⟨"a.zip".toList, Create⟩)] Listener.init).calls
      = [⟨2000000000, "a.zip".toList, 0⟩, ⟨4500000000, "a.zip".toList, 0⟩,
          ⟨6200000000, "a.zip".toList, 1⟩] ∧
    (event_listener atOnce [(0, ⟨"archive.a1b2c3.zip.part".toList, Create⟩)]
        Listener.init).calls
      = [⟨2000000000, "archive.a1b2c3.zip.part".toList, 0⟩] ∧
    mapGet (event_listener atOnce [(0, ⟨"archive.a1b2c3.zip.part".toList, Create⟩)]
        Listener.init).timers "archive.zip".toList = some 0 ∧
    (event_listener_step 5000000000 ⟨"archive.zip".toList, Create⟩
      (event_listener atOnce [(0, ⟨"archive.a1b2c3.zip.part".toList, Create⟩)]
        Listener.init)).heap
      = [⟨⟨"archive.a1b2c3.zip.part".toList, Create⟩, some 7000000000⟩] := by
  decide

/-- C2, amended: let the timer `i`, stored in the map under `name`, have been
made for an event whose path is `name` itself, and let it expire at `d`, at or
before `now`. Then at `now` the call of `process_file` on `name` has been made.
As long as the calls of `process_file` on `name` have not returned, the key is
still in the map and an event for `name` resets the fired timer. Once the call
has returned, `dur i d` after `d`, the key has been removed, and the next event
for `name` makes a new timer, stored under `name`. -/
theorem C2_entry_removed_after_process_file (dur : Nat → Nat → Nat) (now i d : Nat)
    (s : Listener) (t : Timer) (name : Str)
    (hi : s.heap[i]? = some t) (hw : t.when = some d) (hd : d ≤ now)
    (hname : t.f.Name = name) (hget : mapGet s.timers name = some i) :
    Call.mk d name i ∈ (advance dur now s).calls ∧
    ((∀ r ∈ (fireAll (fun u => decide (u ≤ now)) dur s).running,
        r.e.Name = name → now < r.returns) →
      mapGet (advance dur now s).timers name = some i ∧
      ∀ (now' : Nat) (e : Event), eventKey e = some name →
        (event_listener_step now' e (advance dur now s)).heap
          = Reset (advance dur now s).heap i (now' + wait)) ∧
    (d + dur i d ≤ now →
      mapGet (advance dur now s).timers name = none ∧
      ∀ (now' : Nat) (e : Event), eventKey e = some name →
        (event_listener_step now' e (advance dur now s)).heap
          = (advance dur now s).heap ++ [Timer.mk e (some (now' + wait))] ∧
        mapGet (event_listener_step now' e (advance dur now s)).timers name
          = some (advance dur now s).heap.length) := by
  obtain ⟨hcall, hrun⟩ :=
    fireAll_fires (fun u => decide (u ≤ now)) dur i t d s hi hw (by simpa using hd)
  rw [hname] at hcall
  have hadv : advance dur now s
      = finish (fun u => decide (u ≤ now)) (fireAll (fun d => decide (d ≤ now)) dur s) := rfl
  refine ⟨?_, ?_, ?_⟩
  · rw [hadv, finish_eq]
    exact hcall
  · intro hbusy
    have hkeep : mapGet (advance dur now s).timers name = some i := by
      rw [hadv, finish_eq]
      show mapGet (List.foldl _ (fireAll _ dur s).timers _) name = _
      rw [mapGet_foldl_delete_other, fireAll_timers, hget]
      intro r hr hrn
      have hr1 := List.mem_of_mem_filter hr
      have hr2 := (List.mem_filter.1 hr).2
      have := hbusy r hr1 hrn
      simp only [decide_eq_true_eq] at hr2
      omega
    exact ⟨hkeep, fun now' e he => by rw [step_found now' e _ name i he hkeep]⟩
  · intro hret
    have hgone : mapGet (advance dur now s).timers name = none := by
      rw [hadv, finish_eq]
      show mapGet (List.foldl _ (fireAll _ dur s).timers _) name = _
      apply mapGet_foldl_delete_hit
      refine ⟨_, List.mem_filter.2 ⟨hrun, ?_⟩, hname⟩
      simpa using hret
    refine ⟨hgone, fun now' e he => ?_⟩
    rw [step_first now' e _ name he hgone]
    refine ⟨rfl, ?_⟩
    show mapGet (mapSet _ name _) name = _
    rw [mapGet_mapSet, if_pos rfl]

/-- C2, amended, at the timer made for `a.zip` at instant 0, which expires at
2 s, with a call of `process_file` that takes one second: at 2.5 s the call has
been made and the key is still in the map, at 3 s the key has been removed. -/
theorem C2_entry_removed_after_process_file_witness :
    Call.mk 2000000000 "a.zip".toList 0
      ∈ (advance oneSecond 2500000000
          ⟨[("a.zip".toList, 0)], [⟨⟨"a.zip".toList, Create⟩, some 2000000000⟩], [], []⟩).calls ∧
    mapGet (advance oneSecond 2500000000
        ⟨[("a.zip".toList, 0)], [⟨⟨"a.zip".toList, Create⟩, some 2000000000⟩], [], []⟩).timers
      "a.zip".toList = some 0 ∧
    mapGet (advance oneSecond 3000000000
        ⟨[("a.zip".toList, 0)], [⟨⟨"a.zip".toList, Create⟩, some 2000000000⟩], [], []⟩).timers
      "a.zip".toList = none :=
  ⟨(C2_entry_removed_after_process_file oneSecond 2500000000 0 2000000000
      ⟨[("a.zip".toList, 0)], [⟨⟨"a.zip".toList, Create⟩, some 2000000000⟩], [], []⟩
      ⟨⟨"a.zip".toList, Create⟩, some 2000000000⟩ "a.zip".toList
      (by decide) (by decide) (by decide) (by decide) (by decide)).1,
    ((C2_entry_removed_after_process_file oneSecond 2500000000 0 2000000000
      ⟨[("a.zip".toList, 0)], [⟨⟨"a.zip".toList, Create⟩, some 2000000000⟩], [], []⟩
      ⟨⟨"a.zip".toList, Create⟩, some 2000000000⟩ "a.zip".toList
      (by decide) (by decide) (by decide) (by decide) (by decide)).2.1 (by decide)).1,
    ((C2_entry_removed_after_process_file oneSecond 3000000000 0 2000000000
      ⟨[("a.zip".toList, 0)], [⟨⟨"a.zip".toList, Create⟩, some 2000000000⟩], [], []⟩
      ⟨⟨"a.zip".toList, Create⟩, some 2000000000⟩ "a.zip".toList
      (by decide) (by decide) (by decide) (by decide) (by decide)).2.2 (by decide)).1⟩

/-! ## Two signals for one burst (C1) -/

/-- C1 at a failing input. The map holds the key `x.part` of a timer made one
second earlier for the path `x.y.part`, and no entry for `x.y.part`, the key of
the path `x.z.y.part.part`. A create and a write event for that path arrive at
2 s and 3.2 s. The callback of the first timer deletes the key `x.y.part` at
3 s (its call of `process_file` returns at once, at the ignore-suffix check), so
the write event makes a second timer, and `process_file` is called on the path
twice, at 4 s and at 5.2 s: two signals, the first one earlier than the last
event plus the quiet period. -/
theorem C1_interleaved_burst_emits_two_signals :
    eventKey ⟨"x.z.y.part.part".toList, Create⟩ = some "x.y.part".toList ∧
    eventKey ⟨"x.z.y.part.part".toList, Write⟩ = some "x.y.part".toList ∧
    mapGet (runEvents atOnce [(1000000000, ⟨"x.y.part".toList, Create⟩)]
      Listener.init).timers "x.y.part".toList = none ∧
    3200000000 < 2000000000 + wait ∧
    signalsFor "x.z.y.part.part".toList
      (event_listener atOnce
        [(2000000000, ⟨"x.z.y.part.part".toList, Create⟩),
          (3200000000, ⟨"x.z.y.part.part".toList, Write⟩)]
        (runEvents atOnce [(1000000000, ⟨"x.y.part".toList, Create⟩)] Listener.init))
      = [4000000000, 5200000000] := by
  decide

/-! ## A burst of events for one key, from a quiescent state -/

theorem foldl_fire_id (due : Nat → Bool) (dur : Nat → Nat → Nat) (s : Listener) :
    ∀ (l : List Nat), (∀ i ∈ l, fire due dur i s = s) →
      l.foldl (fun st i => fire due dur i st) s = s := by
  intro l
  induction l with
  | nil => intro _; rfl
  | cons i l ih =>
    intro h
    simp only [List.foldl_cons]
    rw [h i (by simp)]
    exact ih (fun j hj => h j (by simp [hj]))

theorem finish_of_idle (due : Nat → Bool) (s : Listener) (h : s.running = []) :
    finish due s = s := by
  rw [finish_eq, h]
  cases s
  simp_all

theorem modify_append_length (l : List Timer) (a : Timer) (g : Timer → Timer) :
    (l ++ [a]).modify g l.length = l ++ [g a] := by
  induction l with
  | nil => rfl
  | cons x xs ih => simp [List.modify_succ_cons, ih]

theorem set_append_length (l : List Timer) (a b : Timer) :
    (l ++ [a]).set l.length b = l ++ [b] := by
  induction l with
  | nil => rfl
  | cons x xs ih => simp [ih]

theorem step_pending (now : Nat) (e e0 : Event) (s : Listener) (name : Str) (d : Nat)
    (hk : eventKey e = some name) :
    event_listener_step now e (pending s name e0 d) = pending s name e0 (now + wait) := by
  have hg : mapGet (pending s name e0 d).timers name = some s.heap.length := by
    show mapGet (mapSet s.timers name s.heap.length) name = _
    rw [mapGet_mapSet, if_pos rfl]
  rw [step_found now e _ name _ hk hg]
  show Listener.mk _ (Reset (s.heap ++ [Timer.mk e0 (some d)]) s.heap.length (now + wait)) _ _
    = _
  unfold Reset
  rw [modify_append_length]
  rfl

theorem advance_quiescent (dur : Nat → Nat → Nat) (now : Nat) (s : Listener)
    (hq : ∀ t ∈ s.heap, t.when = none) (hr : s.running = []) : advance dur now s = s := by
  have hf : fireAll (fun d => decide (d ≤ now)) dur s = s := by
    unfold fireAll
    apply foldl_fire_id
    intro i _
    cases h : s.heap[i]? with
    | none => exact fire_of_none _ dur i s h
    | some t => exact fire_of_idle _ dur i s t h (hq t (List.getElem?_mem h))
  unfold advance
  rw [hf, finish_of_idle _ s hr]

theorem pending_getElem (s : Listener) (name : Str) (e0 : Event) (d i : Nat) (t : Timer)
    (hq : ∀ t ∈ s.heap, t.when = none) (h : (pending s name e0 d).heap[i]? = some t) :
    t.when = none ∨ (i = s.heap.length ∧ t = Timer.mk e0 (some d)) := by
  have h' : (s.heap ++ [Timer.mk e0 (some d)])[i]? = some t := h
  by_cases hi : i < s.heap.length
  · rw [List.getElem?_append_left hi] at h'
    exact Or.inl (hq t (List.getElem?_mem h'))
  · rw [List.getElem?_append_right (by omega)] at h'
    right
    have hz : i - s.heap.length = 0 := by
      by_contra hne
      rw [List.getElem?_eq_none (by simp; omega)] at h'
      cases h'
    rw [hz] at h'
    exact ⟨by omega, (Option.some.inj h').symm⟩

theorem advance_pending (dur : Nat → Nat → Nat) (now : Nat) (s : Listener) (name : Str)
    (e0 : Event) (d : Nat) (hq : ∀ t ∈ s.heap, t.when = none) (hr : s.running = [])
    (hd : now < d) : advance dur now (pending s name e0 d) = pending s name e0 d := by
  have hf : fireAll (fun d => decide (d ≤ now)) dur (pending s name e0 d)
      = pending s name e0 d := by
    unfold fireAll
    apply foldl_fire_id
    intro i _
    cases h : (pending s name e0 d).heap[i]? with
    | none => exact fire_of_none _ dur i _ h
    | some t =>
      rcases pending_getElem s name e0 d i t hq h with hw | ⟨_, ht⟩
      · exact fire_of_idle _ dur i _ t h hw
      · refine fire_of_not_due _ dur i _ t d h (by rw [ht]) ?_
        simp only [decide_eq_false_iff_not]
        omega
  unfold advance
  rw [hf]
  exact finish_of_idle _ _ hr

theorem runEvents_pending (dur : Nat → Nat → Nat) (s : Listener) (name : Str) (e0 : Event)
    (hq : ∀ t ∈ s.heap, t.when = none) (hr : s.running = []) :
    ∀ (rest : List (Nat × Event)) (t : Nat), coalesced name t rest = true →
      runEvents dur rest (pending s name e0 (t + wait))
        = pending s name e0 (lastInstant t rest + wait) := by
  intro rest
  induction rest with
  | nil => intro t _; rfl
  | cons te rest ih =>
    intro t hc
    unfold coalesced at hc
    simp only [Bool.and_eq_true, decide_eq_true_eq, beq_iff_eq] at hc
    obtain ⟨⟨h1, h2⟩, h3⟩ := hc
    rw [runEvents_cons, advance_pending dur te.1 s name e0 _ hq hr h1,
      step_pending te.1 te.2 e0 s name _ h2]
    exact ih te.1 h3

theorem drain_pending (dur : Nat → Nat → Nat) (s : Listener) (name : Str) (e0 : Event)
    (d : Nat) (hq : ∀ t ∈ s.heap, t.when = none) (hr : s.running = []) :
    drain dur (pending s name e0 d)
      = { timers := mapDelete (mapSet s.timers name s.heap.length) e0.Name
          heap := s.heap ++ [Timer.mk e0 none]
          running := []
          calls := s.calls ++ [Call.mk d e0.Name s.heap.length] } := by
  have hlen : (pending s name e0 d).heap.length = s.heap.length + 1 := by
    simp [pending]
  have hid : (List.range s.heap.length).foldl (fun st i => fire (fun _ => true) dur i st)
      (pending s name e0 d) = pending s name e0 d := by
    apply foldl_fire_id
    intro i hi
    have hi' : i < s.heap.length := List.mem_range.1 hi
    have hget : (pending s name e0 d).heap[i]? = s.heap[i]? :=
      List.getElem?_append_left hi'
    cases h : s.heap[i]? with
    | none => exact fire_of_none _ dur i _ (hget.trans h)
    | some t => exact fire_of_idle _ dur i _ t (hget.trans h) (hq t (List.getElem?_mem h))
  have hget : (pending s name e0 d).heap[s.heap.length]? = some (Timer.mk e0 (some d)) := by
    show (s.heap ++ [Timer.mk e0 (some d)])[s.heap.length]? = _
    rw [List.getElem?_append_right (Nat.le_refl _)]
    simp
  have hf : fireAll (fun _ => true) dur (pending s name e0 d)
      = { timers := mapSet s.timers name s.heap.length
          heap := s.heap ++ [Timer.mk e0 none]
          running := [Running.mk (d + dur s.heap.length d) e0]
          calls := s.calls ++ [Call.mk d e0.Name s.heap.length] } := by
    unfold fireAll
    rw [hlen, List.range_succ, List.foldl_append, hid]
    simp only [List.foldl_cons, List.foldl_nil]
    rw [fire_of_due _ dur _ _ _ d hget rfl rfl]
    show Listener.mk _ ((s.heap ++ [Timer.mk e0 (some d)]).set s.heap.length _) (s.running ++ _) _
      = _
    rw [set_append_length, hr]
    rfl
  unfold drain
  rw [hf, finish_eq]
  rfl

/-- A burst of events for one key, from a state without armed timer, without
callback in progress and without the key: the events make and then reset one
timer, which expires once, `wait` after the last event, and calls
`process_file` on the path of the first event. -/
theorem burst_result (dur : Nat → Nat → Nat) (s : Listener) (name : Str) (t0 : Nat)
    (e0 : Event) (rest : List (Nat × Event)) (hqs : quiescent s = true)
    (hg : mapGet s.timers name = none) (h0 : eventKey e0 = some name)
    (hc : coalesced name t0 rest = true) :
    event_listener dur ((t0, e0) :: rest) s
      = { timers := mapDelete (mapSet s.timers name s.heap.length) e0.Name
          heap := s.heap ++ [Timer.mk e0 none]
          running := []
          calls := s.calls ++ [Call.mk (lastInstant t0 rest + wait) e0.Name s.heap.length] } := by
  unfold quiescent at hqs
  simp only [Bool.and_eq_true, List.all_eq_true, beq_iff_eq, List.isEmpty_iff] at hqs
  obtain ⟨hq, hr⟩ := hqs
  unfold event_listener
  rw [runEvents_cons, advance_quiescent dur t0 s hq hr]
  have hfirst : event_listener_step t0 e0 s = pending s name e0 (t0 + wait) :=
    step_first t0 e0 s name h0 hg
  show drain dur (runEvents dur rest (event_listener_step t0 e0 s)) = _
  rw [hfirst, runEvents_pending dur s name e0 hq hr rest t0 hc,
    drain_pending dur s name e0 _ hq hr]

/-- Outside the defect shown for C1 the debounce holds: from a state without
armed timer, without callback in progress and without the key of the path, a
burst of qualifying events for one path, each less than the quiet period after
the one before, ends in exactly one more call of `process_file` on the path, at
the instant of the last event plus the quiet period, however long the calls
take. -/
theorem debounce_from_quiescent_state (dur : Nat → Nat → Nat) (s : Listener) (name : Str)
    (t0 : Nat) (e0 : Event) (rest : List (Nat × Event)) (hqs : quiescent s = true)
    (hg : mapGet s.timers name = none) (h0 : eventKey e0 = some name)
    (hc : coalesced name t0 rest = true) :
    signalsFor e0.Name (event_listener dur ((t0, e0) :: rest) s)
      = signalsFor e0.Name s ++ [lastInstant t0 rest + wait] := by
  rw [burst_result dur s name t0 e0 rest hqs hg h0 hc]
  simp [signalsFor]

end AutoExtractor
